import Mathlib

/-!
Verification of the ASH recipe-evaluation parser and score validator.

Shallow embedding of the evaluation-side code of the dmis-lab/ASH repository:

* `code/evaluation/5-round/evaluate_recipes_5_ollama.py` — `RecipeEvaluator`
  with `parse_evaluation` (six regex probes), `validate_and_fix_scores`,
  `evaluate_recipe` (error substitution) and `evaluate_recipes`
  (rows × 5 models × 5 iterations).
* `code/evaluation/single/evaluate_recipes_4o_mini.py` — its
  `parse_evaluation` and `validate_and_fix_scores` are character-for-character
  identical to the ollama variant, so they share one embedding here; its
  orchestrator does one call per row (no iteration loop).
* `code/evaluation/5-round/evaluate_recipes_5_gemini_flash.py` — a simpler
  `parse_evaluation` (integer-only score capture, raw string scores, no
  Explanation alternative, no `$` fallback in the reason terminators) and an
  orchestrator with a single evaluator model and no validator pass.

Texts are modelled as `List Char`.  The Python regexes are applied with
`re.DOTALL | re.IGNORECASE`; for each of the six concrete patterns the
backtracking search is equivalent to a deterministic left-to-right scan
(argued pattern by pattern in the doc comments below), which is what we
embed.  Python's `\s` and `str.strip` are modelled over their ASCII subset
` \t\n\r\x0b\x0c` (the texts the program manipulates are ASCII).  Python
floats are modelled as exact rationals: every numeric literal the code can
accept (`\d+(\.\d+)?` after stripping) denotes a small decimal for which the
in-range comparisons `1 <= x <= 5` agree with IEEE semantics.
-/

/-- Lowercase an ASCII letter; other characters are fixed.  Models the
case-folding done by `re.IGNORECASE` on the ASCII texts involved. -/
def lcChar (c : Char) : Char :=
  if 65 ≤ c.toNat && c.toNat ≤ 90 then Char.ofNat (c.toNat + 32) else c

/-- Case-insensitive character comparison. -/
def ciEq (a b : Char) : Bool := lcChar a == lcChar b

/-- Python regex `\d` (ASCII). -/
def isDigitC (c : Char) : Bool := 48 ≤ c.toNat && c.toNat ≤ 57

/-- Python regex `\s`, ASCII subset: space, `\t`, `\n`, `\r`, `\x0b`, `\x0c`. -/
def isSpaceC (c : Char) : Bool :=
  c == ' ' || c == '\t' || c == '\n' || c == '\r' || c == '\x0b' || c == '\x0c'

/-- A character that is whitespace, a digit, a dot or a colon: fixed by
lowercasing and never case-insensitively equal to a letter.  Used to discharge
"no pattern label can start here" side conditions. -/
def plainC (c : Char) : Bool :=
  isSpaceC c || isDigitC c || c == '.' || c == ':'

/-- `prefixCI lab s`: the literal `lab` matches case-insensitively at the
start of `s` (the whole of `lab` must fit). -/
def prefixCI : List Char → List Char → Bool
  | [], _ => true
  | _ :: _, [] => false
  | a :: as, b :: bs => ciEq a b && prefixCI as bs

/-- `pseudoPrefix lab t`: `lab` matches case-insensitively against `t` as far
as `t` reaches (if `t` runs out first the answer is `true`, because a
continuation of `t` could still complete the match). -/
def pseudoPrefix : List Char → List Char → Bool
  | [], _ => true
  | _ :: _, [] => true
  | a :: as, b :: bs => ciEq a b && pseudoPrefix as bs

/-- `hasCI lab s`: some suffix of `s` starts with a case-insensitive
occurrence of `lab`. -/
def hasCI (lab : List Char) : List Char → Bool
  | [] => prefixCI lab []
  | s@(_ :: t) => prefixCI lab s || hasCI lab t

/-- Python `str.strip()` (ASCII whitespace). -/
def pyStrip (s : List Char) : List Char :=
  ((s.dropWhile isSpaceC).reverse.dropWhile isSpaceC).reverse

/-- The pattern literals, with the casing they have in the source patterns
(matching is case-insensitive throughout). -/
def authU : List Char := ['A', 'U', 'T', 'H', 'E', 'N', 'T', 'I', 'C', 'I', 'T', 'Y']

def sensU : List Char := ['S', 'E', 'N', 'S', 'I', 'T', 'I', 'V', 'I', 'T', 'Y']

def harmU : List Char := ['H', 'A', 'R', 'M', 'O', 'N', 'Y']

def reasonU : List Char := ['R', 'e', 'a', 's', 'o', 'n', ':']

def explU : List Char := ['E', 'x', 'p', 'l', 'a', 'n', 'a', 't', 'i', 'o', 'n', ':']

/-- `re.search` for a pattern of the form `LABEL<rest>`: try every start
position left to right; at a position where `LABEL` matches case-insensitively,
run the (deterministic) matcher for `<rest>` on the text after the label, and
fall through to later positions if it fails.  This is exactly Python's
leftmost-match backtracking for the six patterns embedded here, whose every
alternative starts with the literal label. -/
def searchLR (lab : List Char) (after : List Char → Option (List Char)) :
    List Char → Option (List Char)
  | [] => none
  | c :: t =>
    if prefixCI lab (c :: t) then
      match after ((c :: t).drop lab.length) with
      | some v => some v
      | none => searchLR lab after t
    else searchLR lab after t

/-- Matcher for `:?\s*(?:\*|\#)?\s*(\d+(?:\.\d+)?)` — the part of the score
patterns of `parse_evaluation` (ollama / 4o-mini variants, e.g.
`r'AUTHENTICITY:?\s*(?:\*|\#)?\s*(\d+(?:\.\d+)?)'`) after the label.  The
character classes of consecutive pattern pieces are disjoint, so the greedy
quantifiers never have to give characters back and the regex is equivalent to
this deterministic scan; returns the capture group. -/
def afterColon (s : List Char) : List Char :=
  match s with | ':' :: t => t | t => t

def afterMark (s : List Char) : List Char :=
  match s with
  | c :: t => if c = '*' ∨ c = '#' then t else c :: t
  | [] => []

/-- The capture `(\d+(?:\.\d+)?)`: greedy digits, then one optional dot that
is taken only when at least one digit follows it (otherwise the optional
group fails and the match ends after the integer digits). -/
def digitsDotTok (s : List Char) : Option (List Char) :=
  if (s.takeWhile isDigitC).isEmpty then none
  else
    match s.dropWhile isDigitC with
    | '.' :: r2 =>
      if (r2.takeWhile isDigitC).isEmpty then some (s.takeWhile isDigitC)
      else some (s.takeWhile isDigitC ++ '.' :: r2.takeWhile isDigitC)
    | _ => some (s.takeWhile isDigitC)

def matchScoreAfterLabel (s : List Char) : Option (List Char) :=
  digitsDotTok ((afterMark ((afterColon s).dropWhile isSpaceC)).dropWhile isSpaceC)

/-- Scan for the first case-insensitive occurrence of `Reason:` or
`Explanation:` (the `.*?(?:Reason|Explanation):` part of the reason patterns,
with `.*?` lazy under `re.DOTALL`); returns the text after the matched label.
For the ollama/4o-mini reason patterns the continuation after this point can
never fail (their lookaheads all accept the end of the string), so the lazy
`.*?` settles on the first occurrence and no backtracking past it occurs. -/
def findRE : List Char → Option (List Char)
  | [] => none
  | c :: t =>
    if prefixCI reasonU (c :: t) then some ((c :: t).drop 7)
    else if prefixCI explU (c :: t) then some ((c :: t).drop 12)
    else findRE t

/-- The lookahead `(?=\n*(?:L₁|…|Lₖ|$))` (with `$` present iff `withEnd`):
under backtracking of the greedy `\n*` this succeeds iff, after dropping the
maximal run of newlines, one of the labels matches or (`withEnd`) the string
has been exhausted (`$` without `re.MULTILINE` matches at the end or before a
final newline, both subsumed by the all-newlines case). -/
def lookTerm (labs : List (List Char)) (withEnd : Bool) (s : List Char) : Bool :=
  let r := s.dropWhile (fun c => c == '\n')
  labs.any (fun l => prefixCI l r) || (withEnd && r.isEmpty)

/-- The bare lookahead `(?=$)` (no `re.MULTILINE`): end of string, or just
before a single final newline. -/
def lookEnd (s : List Char) : Bool := s == [] || s == ['\n']

/-- The lazy capture `(.*?)` bounded by a lookahead: capture up to the first
position at which `look` succeeds. -/
def lazyCapture (look : List Char → Bool) : List Char → Option (List Char)
  | [] => if look [] then some [] else none
  | c :: t => if look (c :: t) then some [] else (lazyCapture look t).map (c :: ·)

/-- Matcher for `.*?(?:Reason|Explanation):\s*(.*?)(?=…)` after the reason
pattern's `LABEL:` prefix: first `Reason:`/`Explanation:` occurrence, then
greedy `\s*` (its whitespace can never usefully be given back, since the
capture can always extend to a position where these lookaheads hold), then
the lazy capture. -/
def matchReasonAfterLabel (look : List Char → Bool) (s : List Char) :
    Option (List Char) :=
  match findRE s with
  | none => none
  | some r => lazyCapture look (r.dropWhile isSpaceC)

/-- Strip every character that is not a digit or a dot:
`re.sub(r'[^\d.]', '', value)`. -/
def subNonNumeric (s : List Char) : List Char :=
  s.filter (fun c => isDigitC c || c == '.')

/-- Accumulate a digit string into a natural number. -/
def digitsVal (s : List Char) : ℕ :=
  s.foldl (fun a c => 10 * a + (c.toNat - 48)) 0

/-- Value of a string of digits possibly containing one dot
(`\d*\.?\d*` shapes), as an exact rational. -/
def numTokVal (s : List Char) : ℚ :=
  match s.dropWhile isDigitC with
  | '.' :: f =>
    (digitsVal (s.takeWhile isDigitC) : ℚ) +
      (digitsVal (f.takeWhile isDigitC) : ℚ) / (10 : ℚ) ^ (f.takeWhile isDigitC).length
  | _ => (digitsVal (s.takeWhile isDigitC) : ℚ)

/-- Python `float(s)` restricted to strings over the alphabet `[0-9.]` (which
is all `subNonNumeric` can produce): defined iff there is at least one digit
and at most one dot. -/
def pyFloatDD (s : List Char) : Option ℚ :=
  if s.all (fun c => isDigitC c || c == '.') && s.any isDigitC && s.count '.' ≤ 1 then
    some (numTokVal s)
  else none

/-- Numeric coercion of a captured score string
(`evaluate_recipes_5_ollama.py` lines 64–68 / `evaluate_recipes_4o_mini.py`
lines 81–85): strip every character that is not a digit or dot, then
`float(...)`, with the `ValueError` branch yielding `None`. -/
def coerceScore (s : List Char) : Option ℚ := pyFloatDD (subNonNumeric s)

/-- The structured result of `parse_evaluation` (ollama/4o-mini variants):
score fields already numerically coerced, reason fields raw stripped
strings. -/
structure Parsed where
  authenticity_score : Option ℚ
  authenticity_reason : Option (List Char)
  sensitivity_score : Option ℚ
  sensitivity_reason : Option (List Char)
  harmony_score : Option ℚ
  harmony_reason : Option (List Char)
  deriving DecidableEq

/-- One score probe: `re.search` the score pattern, then
`match.group(1).strip()` and numeric coercion. -/
def scoreField (lab : List Char) (text : List Char) : Option ℚ :=
  (searchLR lab matchScoreAfterLabel text).bind (fun g => coerceScore (pyStrip g))

/-- One reason probe: `re.search` the reason pattern (label plus mandatory
colon), then `match.group(1).strip()`. -/
def reasonField (lab : List Char) (look : List Char → Bool) (text : List Char) :
    Option (List Char) :=
  (searchLR (lab ++ [':']) (matchReasonAfterLabel look) text).map pyStrip

/-- `RecipeEvaluator.parse_evaluation` of
`evaluate_recipes_5_ollama.py` (lines 48–73), identical to the one in
`evaluate_recipes_4o_mini.py` (lines 64–90): six independent probes, each
`re.search`ed over the full text with `re.DOTALL | re.IGNORECASE`.
The authenticity reason is terminated by `(?=\n*(?:SENSITIVITY|HARMONY|$))`,
the sensitivity reason by `(?=\n*(?:HARMONY|$))`, the harmony reason by
`(?=$)`. -/
def parse_evaluation (text : List Char) : Parsed :=
  { authenticity_score := scoreField authU text
    authenticity_reason := reasonField authU (lookTerm [sensU, harmU] true) text
    sensitivity_score := scoreField sensU text
    sensitivity_reason := reasonField sensU (lookTerm [harmU] true) text
    harmony_score := scoreField harmU text
    harmony_reason := reasonField harmU lookEnd text }

/-- `score is None or score < 1 or score > 5` — the condition under which
`validate_and_fix_scores` attempts a repair. -/
def scoreBad : Option ℚ → Bool
  | none => true
  | some v => decide (v < 1) || decide (5 < v)

/-- First match of `r'\d+(?:\.\d+)?'` in a reason string (`re.search` scans
for the first digit; `\d+` is greedy, then one optional `.\d+`). -/
def firstNumTok : List Char → Option (List Char)
  | [] => none
  | c :: t => if isDigitC c then digitsDotTok (c :: t) else firstNumTok t

/-- The repair arm of `validate_and_fix_scores` (lines 79–94 of the ollama
file, 96–111 of the 4o-mini file): `if text:` is false for `None` and for the
empty string; otherwise search for the first numeric token; in-range tokens
become the score, everything else nulls it.  `float` on the matched token
cannot raise, so the `except ValueError` branch is dead. -/
def repairFromReason : Option (List Char) → Option ℚ
  | none => none
  | some [] => none
  | some r =>
    match firstNumTok r with
    | none => none
    | some tok =>
      if 1 ≤ numTokVal tok ∧ numTokVal tok ≤ 5 then some (numTokVal tok) else none

/-- One loop iteration of `validate_and_fix_scores` for a single criterion:
keep an in-range score, otherwise repair from the reason text. -/
def fixScore (x : Option ℚ) (r : Option (List Char)) : Option ℚ :=
  if scoreBad x then repairFromReason r else x

/-- `RecipeEvaluator.validate_and_fix_scores`
(`evaluate_recipes_5_ollama.py` lines 75–95, identical in
`evaluate_recipes_4o_mini.py` lines 92–112).  The loop writes only the three
score keys and reads only the three (never-written) reason keys, so the
sequential dict mutation is the simultaneous update below. -/
def validate_and_fix_scores (p : Parsed) : Parsed :=
  { p with
    authenticity_score := fixScore p.authenticity_score p.authenticity_reason
    sensitivity_score := fixScore p.sensitivity_score p.sensitivity_reason
    harmony_score := fixScore p.harmony_score p.harmony_reason }

/-! ## The gemini-flash variant of the parser
(`evaluate_recipes_5_gemini_flash.py`, lines 54–72): integer-only score
captures kept as raw strings, reason patterns without a colon after the
label, only `Reason:` (no `Explanation:`), and reason terminators
`(?=\n*SENSITIVITY)` / `(?=\n*HARMONY)` / greedy-to-end with no `$`
fallback. -/

/-- Matcher for `:?\s*(\d+)` (gemini score patterns, e.g.
`r'AUTHENTICITY:?\s*(\d+)'`). -/
def digitsTok (s : List Char) : Option (List Char) :=
  if (s.takeWhile isDigitC).isEmpty then none else some (s.takeWhile isDigitC)

def matchScoreAfterLabelG (s : List Char) : Option (List Char) :=
  digitsTok ((afterColon s).dropWhile isSpaceC)

/-- Matcher for `.*?(?:Reason):\s*(.*?)(?=\n*LABEL)` after the label.  The
lookahead here has no `$` alternative, so the capture can fail, in which case
the lazy `.*?` continues to the next `Reason:` occurrence — hence the
backtracking scan. -/
def reasonScanG (look : List Char → Bool) : List Char → Option (List Char)
  | [] => none
  | c :: t =>
    if prefixCI reasonU (c :: t) then
      match lazyCapture look (((c :: t).drop 7).dropWhile isSpaceC) with
      | some cap => some cap
      | none => reasonScanG look t
    else reasonScanG look t

/-- Matcher for `.*?(?:Reason):\s*(.*)` after the label (gemini harmony
reason): first `Reason:` occurrence, then the greedy capture takes everything
to the end of the text and cannot fail. -/
def reasonToEndG : List Char → Option (List Char)
  | [] => none
  | c :: t =>
    if prefixCI reasonU (c :: t) then some (((c :: t).drop 7).dropWhile isSpaceC)
    else reasonToEndG t

/-- The structured result of the gemini `parse_evaluation`: all six fields
are raw stripped capture strings (no numeric coercion in this variant). -/
structure ParsedG where
  authenticity_score : Option (List Char)
  authenticity_reason : Option (List Char)
  sensitivity_score : Option (List Char)
  sensitivity_reason : Option (List Char)
  harmony_score : Option (List Char)
  harmony_reason : Option (List Char)
  deriving DecidableEq

/-- `RecipeEvaluator.parse_evaluation` of
`evaluate_recipes_5_gemini_flash.py` (lines 54–72). -/
def parse_evaluation_gem (text : List Char) : ParsedG :=
  { authenticity_score := (searchLR authU matchScoreAfterLabelG text).map pyStrip
    authenticity_reason := (searchLR authU (reasonScanG (lookTerm [sensU] false)) text).map pyStrip
    sensitivity_score := (searchLR sensU matchScoreAfterLabelG text).map pyStrip
    sensitivity_reason := (searchLR sensU (reasonScanG (lookTerm [harmU] false)) text).map pyStrip
    harmony_score := (searchLR harmU matchScoreAfterLabelG text).map pyStrip
    harmony_reason := (searchLR harmU reasonToEndG text).map pyStrip }

/-! ## Orchestrators -/

/-- One input CSV row (the columns the evaluation uses; passthrough columns
do not affect any claim). -/
structure Row where
  original_dish : List Char
  variation : List Char
  generated_recipe : List Char
  deriving DecidableEq

/-- `RecipeEvaluator.model_names` of the ollama variant. -/
def model_names : List (List Char) :=
  ["gemma2:2b".data, "gemma2:9b".data, "mistral:7b".data,
   "llama2:13b".data, "llama3.1:8b".data]

/-- `RecipeEvaluator.evaluate_recipe` of the ollama variant, abstracted over
the LLM call: on an exception the orchestrator substitutes
`f"Error: {str(e)}"` as the raw text instead of propagating. -/
def evaluate_recipe_ollama (call : Except (List Char) (List Char)) : List Char :=
  match call with
  | .ok t => t
  | .error e => "Error: ".data ++ e

/-- `evaluate_recipe` of the gemini variant: the substituted text is
`f"Error in evaluation: {str(e)}"`. -/
def evaluate_recipe_gem (call : Except (List Char) (List Char)) : List Char :=
  match call with
  | .ok t => t
  | .error e => "Error in evaluation: ".data ++ e

/-- Outcome of one `openai.ChatCompletion.create` call in the 4o-mini
variant: success, an `openai.error.OpenAIError`, or any other exception. -/
inductive MiniCall where
  | ok (t : List Char)
  | apiError (e : List Char)
  | otherError (e : List Char)
  deriving DecidableEq

/-- `evaluate_recipe` of the 4o-mini variant with its two except clauses. -/
def evaluate_recipe_mini (call : MiniCall) : List Char :=
  match call with
  | .ok t => t
  | .apiError e => "Error in evaluation: ".data ++ e
  | .otherError e => "Unexpected error in evaluation: ".data ++ e

/-- One output record of the ollama `evaluate_recipes` (one CSV row): the
copied input row, evaluator model, iteration number, raw evaluation text,
and the validated parsed fields. -/
structure Record where
  row : Row
  evaluator_model : List Char
  iteration : ℕ
  evaluation : List Char
  parsed : Parsed
  deriving DecidableEq

/-- `RecipeEvaluator.evaluate_recipes` of the ollama variant (lines 97–139),
abstracted over the input rows (CSV plumbing) and the LLM collaborator
`gen` (which may fail): for each row, each of the 5 configured models and
each of the iterations 1..5, build the raw text (substituting an error
string on failure), parse it, validate it and append one record. -/
def evaluate_recipes_ollama
    (gen : Row → List Char → ℕ → Except (List Char) (List Char))
    (rows : List Row) : List Record :=
  rows.flatMap (fun row =>
    model_names.flatMap (fun m =>
      (List.range 5).map (fun k =>
        let it := k + 1
        let ev := evaluate_recipe_ollama (gen row m it)
        { row := row, evaluator_model := m, iteration := it, evaluation := ev,
          parsed := validate_and_fix_scores (parse_evaluation ev) })))

/-- One output record of the gemini `evaluate_recipes`: no validator pass —
the parsed fields are appended exactly as `parse_evaluation` produced them. -/
structure RecordG where
  row : Row
  evaluator_model : List Char
  iteration : ℕ
  evaluation : List Char
  parsed : ParsedG
  deriving DecidableEq

/-- `RecipeEvaluator.evaluate_recipes` of the gemini variant (lines 74–111):
one evaluator model, iterations 1..5, and crucially no
`validate_and_fix_scores` call between parsing and appending. -/
def evaluate_recipes_gem
    (gen : Row → ℕ → Except (List Char) (List Char))
    (rows : List Row) : List RecordG :=
  rows.flatMap (fun row =>
    (List.range 5).map (fun k =>
      let it := k + 1
      let ev := evaluate_recipe_gem (gen row it)
      { row := row, evaluator_model := "gemini-1.5-flash".data, iteration := it,
        evaluation := ev, parsed := parse_evaluation_gem ev }))

/-- One output record of the 4o-mini single-pass `evaluate_recipes`. -/
structure RecordM where
  row : Row
  evaluation : List Char
  parsed : Parsed
  deriving DecidableEq

/-- `RecipeEvaluator.evaluate_recipes` of the 4o-mini variant (lines
114–150): one call per row, parse then validate then append. -/
def evaluate_recipes_mini (gen : Row → MiniCall) (rows : List Row) : List RecordM :=
  rows.map (fun row =>
    let ev := evaluate_recipe_mini (gen row)
    { row := row, evaluation := ev,
      parsed := validate_and_fix_scores (parse_evaluation ev) })

/-- A finalized score cell is `None` or a value in the closed interval
`[1, 5]`. -/
def scoreOK (x : Option ℚ) : Prop := x = none ∨ ∃ v, x = some v ∧ 1 ≤ v ∧ v ≤ 5

/-- The reason string `"I'd give this a 3 for authenticity"` (apostrophe
spelled as a character). -/
def c4ReasonA : List Char := 'I' :: '\'' :: "d give this a 3 for authenticity".data

/-! ### Well-formed response families

The spec's P1/P2 properties quantify over "syntactically valid" responses.
We realize them over the family below: a response is built from arbitrary
whitespace pads, arbitrary numeric rating tokens, arbitrary newline runs as
line separators, and arbitrary reason strings that do not themselves contain
a criterion label (the response format is ambiguous otherwise, since the
labels are the parser's only terminators) and carry no leading/trailing
whitespace (which `str.strip` would erase). -/

/-- All characters are (ASCII) whitespace. -/
def WSp (w : List Char) : Prop := ∀ c ∈ w, isSpaceC c = true

/-- A nonempty run of newlines (a line separator). -/
def NLrun (n : List Char) : Prop := n ≠ [] ∧ ∀ c ∈ n, c = '\n'

def noLeadWS (r : List Char) : Bool := !isSpaceC (r.headD 'x')

def noTrailWS (r : List Char) : Bool := !isSpaceC (r.reverse.headD 'x')

/-- A reason string: nonempty, no whitespace at either edge. -/
def CleanR (r : List Char) : Prop :=
  r ≠ [] ∧ noLeadWS r = true ∧ noTrailWS r = true

instance (w : List Char) : Decidable (WSp w) :=
  decidable_of_iff (∀ c ∈ w, isSpaceC c = true) Iff.rfl

instance (n : List Char) : Decidable (NLrun n) :=
  decidable_of_iff (n ≠ [] ∧ ∀ c ∈ n, c = '\n') Iff.rfl

instance (r : List Char) : Decidable (CleanR r) :=
  decidable_of_iff (r ≠ [] ∧ noLeadWS r = true ∧ noTrailWS r = true) Iff.rfl

/-- A rating token matching `\d+(\.\d+)?`. -/
inductive NumTok : List Char → Prop
  | int (D : List Char) (hne : D ≠ []) (hdig : ∀ c ∈ D, isDigitC c = true) : NumTok D
  | dec (D F : List Char) (hne : D ≠ []) (hFne : F ≠ [])
      (hdig : ∀ c ∈ D, isDigitC c = true) (hFdig : ∀ c ∈ F, isDigitC c = true) :
      NumTok (D ++ '.' :: F)

/-- A rating token matching `\d+` (the gemini score capture). -/
def IntTok (S : List Char) : Prop := S ≠ [] ∧ ∀ c ∈ S, isDigitC c = true

instance (S : List Char) : Decidable (IntTok S) :=
  decidable_of_iff (S ≠ [] ∧ ∀ c ∈ S, isDigitC c = true) Iff.rfl

/-- One criterion block of a response, written with its continuation: the
label, a colon, whitespace, the rating, a line separator, `Reason:`,
whitespace, the reason text, and the rest of the response. -/
def blockR (lab w S n wR r rest : List Char) : List Char :=
  lab ++ ([':'] ++ (w ++ (S ++ (n ++ (reasonU ++ (wR ++ (r ++ rest)))))))

/-- A full three-criterion response in the documented order. -/
def famText (w0 w1 S1 n1 w2 r1 n2 w3 S2 n3 w4 r2 n4 w5 S3 n5 w6 r3 wE : List Char) :
    List Char :=
  w0 ++ blockR authU w1 S1 n1 w2 r1
    (n2 ++ blockR sensU w3 S2 n3 w4 r2
      (n4 ++ blockR harmU w5 S3 n5 w6 r3 wE))

/-- A response containing exactly one labeled criterion. -/
def oneCritText (lab w0 w S n wR r wE : List Char) : List Char :=
  w0 ++ blockR lab w S n wR r wE

/-- The hypotheses of the three-criterion family (ollama/4o-mini scores may
be decimal). -/
def famOkO (w0 w1 S1 n1 w2 r1 n2 w3 S2 n3 w4 r2 n4 w5 S3 n5 w6 r3 wE : List Char) : Prop :=
  WSp w0 ∧ WSp w1 ∧ NumTok S1 ∧ NLrun n1 ∧ WSp w2 ∧ CleanR r1 ∧ NLrun n2 ∧
  WSp w3 ∧ NumTok S2 ∧ NLrun n3 ∧ WSp w4 ∧ CleanR r2 ∧ NLrun n4 ∧
  WSp w5 ∧ NumTok S3 ∧ NLrun n5 ∧ WSp w6 ∧ CleanR r3 ∧ WSp wE ∧
  hasCI sensU r1 = false ∧ hasCI harmU r1 = false ∧ hasCI harmU r2 = false

/-- The hypotheses of the three-criterion family for the gemini variant
(integer scores, captured as raw strings). -/
def famOkG (w0 w1 S1 n1 w2 r1 n2 w3 S2 n3 w4 r2 n4 w5 S3 n5 w6 r3 wE : List Char) : Prop :=
  WSp w0 ∧ WSp w1 ∧ IntTok S1 ∧ NLrun n1 ∧ WSp w2 ∧ CleanR r1 ∧ NLrun n2 ∧
  WSp w3 ∧ IntTok S2 ∧ NLrun n3 ∧ WSp w4 ∧ CleanR r2 ∧ NLrun n4 ∧
  WSp w5 ∧ IntTok S3 ∧ NLrun n5 ∧ WSp w6 ∧ CleanR r3 ∧ WSp wE ∧
  hasCI sensU r1 = false ∧ hasCI harmU r1 = false ∧ hasCI harmU r2 = false

/-! ## Properties of the validator -/

theorem repairFromReason_bounds {r : Option (List Char)} {v : ℚ}
    (h : repairFromReason r = some v) : 1 ≤ v ∧ v ≤ 5 := by
  match r with
  | none => exact absurd h (by simp [repairFromReason])
  | some [] => exact absurd h (by simp [repairFromReason])
  | some (c :: cs) =>
    cases hft : firstNumTok (c :: cs) with
    | none => simp [repairFromReason, hft] at h
    | some tok =>
      simp only [repairFromReason, hft] at h
      split_ifs at h with hb
      exact (Option.some_inj.mp h) ▸ hb

theorem fixScore_scoreOK (x : Option ℚ) (r : Option (List Char)) :
    scoreOK (fixScore x r) := by
  rw [fixScore]
  by_cases hb : scoreBad x = true
  · rw [if_pos hb]
    cases hr : repairFromReason r with
    | none => exact Or.inl rfl
    | some v => exact Or.inr ⟨v, rfl, repairFromReason_bounds hr⟩
  · rw [if_neg hb]
    cases x with
    | none => simp [scoreBad] at hb
    | some v =>
      simp only [scoreBad, Bool.or_eq_true, decide_eq_true_eq, not_or] at hb
      exact Or.inr ⟨v, rfl, not_lt.mp hb.1, not_lt.mp hb.2⟩

theorem fixScore_idem (x : Option ℚ) (r : Option (List Char)) :
    fixScore (fixScore x r) r = fixScore x r := by
  rcases fixScore_scoreOK x r with h | ⟨v, hv, h1, h5⟩
  · rw [h, fixScore, if_pos (show scoreBad none = true from rfl)]
    rw [fixScore] at h
    by_cases hb : scoreBad x = true
    · rw [if_pos hb] at h
      exact h
    · rw [if_neg hb] at h
      rw [h] at hb
      exact absurd rfl hb
  · have hgood : scoreBad (some v) = false := by
      simp only [scoreBad, Bool.or_eq_false_iff, decide_eq_false_iff_not, not_lt]
      exact ⟨h1, h5⟩
    rw [hv, fixScore, hgood]
    simp

theorem length_evaluate_recipes_ollama (gen : Row → List Char → ℕ → Except (List Char) (List Char))
    (rows : List Row) : (evaluate_recipes_ollama gen rows).length = rows.length * 25 := by
  induction rows with
  | nil => rfl
  | cons r rs ih =>
    show ((r :: rs).flatMap _).length = _
    rw [List.flatMap_cons, List.length_append]
    have h1 : (model_names.flatMap (fun m => (List.range 5).map (fun k =>
        let it := k + 1
        let ev := evaluate_recipe_ollama (gen r m it)
        { row := r, evaluator_model := m, iteration := it, evaluation := ev,
          parsed := validate_and_fix_scores (parse_evaluation ev) : Record }))).length = 25 := by
      simp [model_names, List.flatMap_cons, List.length_append, List.length_map,
        List.length_range]
    rw [h1]
    have h2 : (evaluate_recipes_ollama gen rs).length = rs.length * 25 := ih
    rw [show (rs.flatMap _).length = (evaluate_recipes_ollama gen rs).length from rfl, h2]
    simp [List.length_cons]
    ring

theorem length_evaluate_recipes_gem (gen : Row → ℕ → Except (List Char) (List Char))
    (rows : List Row) : (evaluate_recipes_gem gen rows).length = rows.length * 5 := by
  induction rows with
  | nil => rfl
  | cons r rs ih =>
    show ((r :: rs).flatMap _).length = _
    rw [List.flatMap_cons, List.length_append, List.length_map, List.length_range]
    rw [show (rs.flatMap _).length = (evaluate_recipes_gem gen rs).length from rfl, ih]
    simp [List.length_cons]
    ring

/-- C5: `validate_and_fix_scores` is idempotent: applying it twice to any
parsed record gives the same result as applying it once. -/
theorem c5_validate_idempotent (p : Parsed) :
    validate_and_fix_scores (validate_and_fix_scores p) = validate_and_fix_scores p := by
  simp [validate_and_fix_scores, fixScore_idem]

/-- C1 (amended): every record finalized by `validate_and_fix_scores` has each
of the three criterion scores either null or a value in the closed interval
[1,5]; this holds for every record appended by the ollama 5-round pipeline and
by the 4o-mini single pipeline, which both run the validator before appending.
(The gemini-flash pipeline appends raw, unvalidated parser output — see the
counterexample.) -/
theorem c1_validator_scores_in_range :
    (∀ p : Parsed,
      scoreOK (validate_and_fix_scores p).authenticity_score ∧
      scoreOK (validate_and_fix_scores p).sensitivity_score ∧
      scoreOK (validate_and_fix_scores p).harmony_score) ∧
    (∀ gen rows, ∀ rec ∈ evaluate_recipes_ollama gen rows,
      scoreOK rec.parsed.authenticity_score ∧
      scoreOK rec.parsed.sensitivity_score ∧
      scoreOK rec.parsed.harmony_score) ∧
    (∀ gen rows, ∀ rec ∈ evaluate_recipes_mini gen rows,
      scoreOK rec.parsed.authenticity_score ∧
      scoreOK rec.parsed.sensitivity_score ∧
      scoreOK rec.parsed.harmony_score) := by
  have hp : ∀ p : Parsed,
      scoreOK (validate_and_fix_scores p).authenticity_score ∧
      scoreOK (validate_and_fix_scores p).sensitivity_score ∧
      scoreOK (validate_and_fix_scores p).harmony_score :=
    fun p => ⟨fixScore_scoreOK _ _, fixScore_scoreOK _ _, fixScore_scoreOK _ _⟩
  refine ⟨hp, ?_, ?_⟩
  · intro gen rows rec hrec
    obtain ⟨row, _, hrec⟩ := List.mem_flatMap.mp hrec
    obtain ⟨m, _, hrec⟩ := List.mem_flatMap.mp hrec
    obtain ⟨k, _, hrec⟩ := List.mem_map.mp hrec
    subst hrec
    exact hp _
  · intro gen rows rec hrec
    obtain ⟨row, _, hrec⟩ := List.mem_map.mp hrec
    subst hrec
    exact hp _

/-- Witness for C1: with a collaborator that raises on every call and a single
input row, the first ollama record is in the result collection and its
validated authenticity score satisfies the invariant. -/
theorem c1_witness :
    Record.mk ⟨[], [], []⟩ "gemma2:2b".data 1 "Error: ".data
        (validate_and_fix_scores (parse_evaluation "Error: ".data)) ∈
      evaluate_recipes_ollama (fun _ _ _ => Except.error ([] : List Char))
        [⟨[], [], []⟩] ∧
    scoreOK (validate_and_fix_scores (parse_evaluation "Error: ".data)).authenticity_score :=
  ⟨by decide,
   (c1_validator_scores_in_range.2.1 (fun _ _ _ => Except.error ([] : List Char))
      [⟨[], [], []⟩]
      (Record.mk ⟨[], [], []⟩ "gemma2:2b".data 1 "Error: ".data
        (validate_and_fix_scores (parse_evaluation "Error: ".data)))
      (by decide)).1⟩

/-- C1 counterexample: the gemini-flash pipeline (one of the evaluation
pipelines) appends records without any validator pass, so the out-of-range
raw score capture `"10"` reaches the persisted result collection in all five
iteration records of a run. -/
theorem c1_counterexample :
    ((evaluate_recipes_gem
        (fun _ _ => Except.ok "HARMONY: 10\nReason: way too high.".data)
        [⟨[], [], []⟩]).map (fun r => r.parsed.harmony_score)) =
      List.replicate 5 (some "10".data) ∧
    numTokVal "10".data = 10 ∧ ¬ ((10 : ℚ) ≤ 5) :=
  ⟨by decide, by decide, by norm_num⟩

/-- C3 counterexample: under the code's coercion rule (strip every character
that is not a digit or dot, then `float`), the captured string `"4/5"` coerces
to `45`, not to `4` as the claim states. -/
theorem c3_counterexample : coerceScore "4/5".data = some 45 ∧ ¬ ((45 : ℚ) = 4) :=
  ⟨by decide, by norm_num⟩

/-- C3 (amended): numeric coercion strips every character that is not a digit
or decimal point and parses the remainder as a float, yielding null if the
cleaned string is empty or unparsable; `"4"`, `"4.0"` and `"**4**"` coerce to
4, but `"4/5"` coerces to 45 (the slash is stripped and the remaining digits
read as forty-five), and captures containing only punctuation (`"**!!"`,
`"..."` — dots are kept but carry no digits) coerce to null. -/
theorem c3_numeric_coercion :
    (∀ s, coerceScore s = pyFloatDD (subNonNumeric s)) ∧
    coerceScore "4".data = some 4 ∧
    coerceScore "4.0".data = some 4 ∧
    coerceScore "**4**".data = some 4 ∧
    coerceScore "4/5".data = some 45 ∧
    coerceScore "**!!".data = none ∧
    coerceScore "...".data = none := by
  refine ⟨fun s => rfl, by decide, ?_, by decide, by decide, by decide, by decide⟩
  have h : subNonNumeric "4.0".data = ['4', '.', '0'] := by decide
  have hval : numTokVal ['4', '.', '0'] = 4 := by
    unfold numTokVal
    rw [show List.dropWhile isDigitC ['4', '.', '0'] = ['.', '0'] from by decide]
    show (digitsVal (List.takeWhile isDigitC ['4', '.', '0']) : ℚ) + _ / _ = 4
    rw [show List.takeWhile isDigitC ['4', '.', '0'] = ['4'] from by decide,
        show List.takeWhile isDigitC ['0'] = ['0'] from by decide,
        show digitsVal ['4'] = 4 from by decide,
        show digitsVal ['0'] = 0 from by decide]
    norm_num
  rw [coerceScore, h, pyFloatDD, if_pos (by decide), hval]

/-- C4: for a criterion whose score is null or out of range,
`validate_and_fix_scores` falls back to the criterion's reason text: `None`
and empty reasons null the score, a first numeric token in [1,5] becomes the
score, and a first numeric token out of range (or no token at all) nulls the
score — all without raising.  Concretely, a null score with reason
`"I'd give this a 3 for authenticity"` repairs to 3, and a score of 7 whose
reason contains no number in [1,5] becomes null. -/
theorem c4_validator_repair (x : Option ℚ) (r : Option (List Char))
    (hbad : x = none ∨ ∃ v, x = some v ∧ (v < 1 ∨ 5 < v)) :
    fixScore x r = repairFromReason r ∧
    repairFromReason none = none ∧
    repairFromReason (some []) = none ∧
    (∀ s, r = some s → firstNumTok s = none → repairFromReason r = none) ∧
    (∀ s tok, r = some s → firstNumTok s = some tok →
      repairFromReason r =
        (if 1 ≤ numTokVal tok ∧ numTokVal tok ≤ 5 then some (numTokVal tok) else none)) ∧
    fixScore none (some c4ReasonA) = some 3 ∧
    fixScore (some 7) (some "scored it a 9 overall.".data) = none := by
  have hb : scoreBad x = true := by
    rcases hbad with rfl | ⟨v, rfl, hv⟩
    · rfl
    · simp only [scoreBad, Bool.or_eq_true, decide_eq_true_eq]
      exact hv
  refine ⟨by rw [fixScore, if_pos hb], rfl, rfl, ?_, ?_, ?_, ?_⟩
  · intro s hs hft
    subst hs
    cases s with
    | nil => rfl
    | cons c cs => simp [repairFromReason, hft]
  · intro s tok hs hft
    subst hs
    cases s with
    | nil => exact absurd hft (by simp [firstNumTok])
    | cons c cs => simp [repairFromReason, hft]
  · decide
  · decide

/-- Witness for C4 at the claim's own instance: score null, reason
`"I'd give this a 3 for authenticity"`. -/
theorem c4_witness : fixScore none (some c4ReasonA) = some 3 :=
  (c4_validator_repair none (some c4ReasonA) (Or.inl rfl)).2.2.2.2.2.1

/-- C8: for `R` input rows the ollama 5-round pipeline produces exactly
`R × M × 5` records, with `M = model_names.length = 5` configured evaluator
models, and the gemini 5-round pipeline produces `R × 1 × 5` records with its
single configured model — one record per (recipe, evaluator, iteration)
triple and iteration count fixed at 5. -/
theorem c8_record_counts :
    (∀ gen rows, (evaluate_recipes_ollama gen rows).length =
      rows.length * model_names.length * 5) ∧
    model_names.length = 5 ∧
    (∀ gen rows, (evaluate_recipes_gem gen rows).length = rows.length * 1 * 5) := by
  refine ⟨fun gen rows => ?_, rfl, fun gen rows => ?_⟩
  · rw [length_evaluate_recipes_ollama]
    show rows.length * 25 = rows.length * 5 * 5
    ring
  · rw [length_evaluate_recipes_gem]
    ring

/-- C7: a raised collaborator failure does not halt the batch: the exception
is caught and the synthetic string `"Error: " + str(e)` (ollama; the gemini
variant uses `"Error in evaluation: "`) is substituted as the raw evaluation
text; a batch in which every call raises still appends all `R × 5 × 5`
records, each record's raw text is whatever `evaluate_recipe` returned for
its triple, and parsing the error string `"Error: rate limited"` yields all
six fields null (which the validator preserves). -/
theorem c7_error_substitution :
    (∀ e, evaluate_recipe_ollama (Except.error e) = "Error: ".data ++ e) ∧
    (∀ e, evaluate_recipe_gem (Except.error e) = "Error in evaluation: ".data ++ e) ∧
    (∀ (msgs : Row → List Char → ℕ → List Char) rows,
      (evaluate_recipes_ollama (fun r m i => Except.error (msgs r m i)) rows).length =
        rows.length * 25) ∧
    (∀ gen rows, ∀ rec ∈ evaluate_recipes_ollama gen rows,
      rec.evaluation = evaluate_recipe_ollama (gen rec.row rec.evaluator_model rec.iteration) ∧
      rec.parsed = validate_and_fix_scores (parse_evaluation rec.evaluation)) ∧
    parse_evaluation "Error: rate limited".data = ⟨none, none, none, none, none, none⟩ ∧
    validate_and_fix_scores ⟨none, none, none, none, none, none⟩ =
      ⟨none, none, none, none, none, none⟩ ∧
    parse_evaluation_gem "Error: rate limited".data = ⟨none, none, none, none, none, none⟩ := by
  refine ⟨fun e => rfl, fun e => rfl,
    fun msgs rows => length_evaluate_recipes_ollama _ rows, ?_, by decide, by decide, by decide⟩
  intro gen rows rec hrec
  obtain ⟨row, _, hrec⟩ := List.mem_flatMap.mp hrec
  obtain ⟨m, _, hrec⟩ := List.mem_flatMap.mp hrec
  obtain ⟨k, _, hrec⟩ := List.mem_map.mp hrec
  subst hrec
  exact ⟨rfl, rfl⟩

/-- Witness for C7: with a generator that raises `"rate limited"` on every
call, the first appended record's raw text is the substituted error string. -/
theorem c7_witness :
    Record.mk ⟨[], [], []⟩ "gemma2:2b".data 1 "Error: rate limited".data
        (validate_and_fix_scores (parse_evaluation "Error: rate limited".data)) ∈
      evaluate_recipes_ollama (fun _ _ _ => Except.error "rate limited".data)
        [⟨[], [], []⟩] ∧
    (Record.mk ⟨[], [], []⟩ "gemma2:2b".data 1 "Error: rate limited".data
        (validate_and_fix_scores (parse_evaluation "Error: rate limited".data))).evaluation =
      evaluate_recipe_ollama (Except.error "rate limited".data) :=
  ⟨by decide,
   ((c7_error_substitution.2.2.2.1 (fun _ _ _ => Except.error "rate limited".data)
      [⟨[], [], []⟩]
      (Record.mk ⟨[], [], []⟩ "gemma2:2b".data 1 "Error: rate limited".data
        (validate_and_fix_scores (parse_evaluation "Error: rate limited".data)))
      (by decide)).1)⟩

/-! ## prefixCI / hasCI toolkit -/

theorem prefixCI_extend {lab v : List Char} (z : List Char) (h : prefixCI lab v = true) :
    prefixCI lab (v ++ z) = true := by
  induction lab generalizing v with
  | nil => rfl
  | cons a as ih =>
    cases v with
    | nil => exact absurd h (by simp [prefixCI])
    | cons b bs =>
      simp only [List.cons_append, prefixCI, Bool.and_eq_true] at h ⊢
      exact ⟨h.1, ih h.2⟩

theorem prefixCI_append_long {lab x : List Char} (y : List Char) (h : lab.length ≤ x.length) :
    prefixCI lab (x ++ y) = prefixCI lab x := by
  induction lab generalizing x with
  | nil => rfl
  | cons a as ih =>
    cases x with
    | nil => simp at h
    | cons b bs =>
      show (ciEq a b && prefixCI as (bs ++ y)) = (ciEq a b && prefixCI as bs)
      rw [ih (x := bs) (by simpa using h)]

theorem prefixCI_append_right {lab x y : List Char} (h : x.length < lab.length)
    (hp : prefixCI lab (x ++ y) = true) : prefixCI (lab.drop x.length) y = true := by
  induction x generalizing lab with
  | nil => simpa using hp
  | cons b bs ih =>
    cases lab with
    | nil => simp at h
    | cons a as =>
      simp only [List.cons_append, prefixCI, Bool.and_eq_true] at hp
      simpa using ih (by simpa using h) hp.2

theorem hasCI_iff {lab s : List Char} :
    hasCI lab s = true ↔ ∃ u v, s = u ++ v ∧ prefixCI lab v = true := by
  induction s with
  | nil =>
    rw [hasCI]
    constructor
    · intro h
      exact ⟨[], [], rfl, h⟩
    · rintro ⟨u, v, huv, hv⟩
      obtain ⟨rfl, rfl⟩ := List.append_eq_nil.mp huv.symm
      exact hv
  | cons c t ih =>
    rw [hasCI]
    constructor
    · intro h
      have h' : prefixCI lab (c :: t) = true ∨ hasCI lab t = true := by
        simpa using h
      rcases h' with h | h
      · exact ⟨[], c :: t, rfl, h⟩
      · obtain ⟨u, v, huv, hv⟩ := ih.mp h
        exact ⟨c :: u, v, by rw [huv]; rfl, hv⟩
    · rintro ⟨u, v, huv, hv⟩
      have h' : prefixCI lab (c :: t) = true ∨ hasCI lab t = true := by
        cases u with
        | nil =>
          have hveq : v = c :: t := by simpa using huv.symm
          exact Or.inl (hveq ▸ hv)
        | cons u0 u' =>
          refine Or.inr (ih.mpr ⟨u', v, ?_, hv⟩)
          have := congrArg List.tail huv
          simpa using this
      simpa using h'

theorem hasCI_append_left {lab x : List Char} (y : List Char) (h : hasCI lab x = true) :
    hasCI lab (x ++ y) = true := by
  obtain ⟨u, v, rfl, hv⟩ := hasCI_iff.mp h
  exact hasCI_iff.mpr ⟨u, v ++ y, by simp, prefixCI_extend y hv⟩

theorem hasCI_append_right {lab y : List Char} (x : List Char) (h : hasCI lab y = true) :
    hasCI lab (x ++ y) = true := by
  obtain ⟨u, v, rfl, hv⟩ := hasCI_iff.mp h
  exact hasCI_iff.mpr ⟨x ++ u, v, by simp, hv⟩

theorem hasCI_pyStrip {lab g : List Char} (h : hasCI lab (pyStrip g) = true) :
    hasCI lab g = true := by
  have h2 : g.dropWhile isSpaceC =
      pyStrip g ++ ((g.dropWhile isSpaceC).reverse.takeWhile isSpaceC).reverse := by
    conv_lhs => rw [← (g.dropWhile isSpaceC).reverse_reverse,
      ← List.takeWhile_append_dropWhile (p := isSpaceC) (l := (g.dropWhile isSpaceC).reverse)]
    rw [List.reverse_append]
    rfl
  have h1 : g = g.takeWhile isSpaceC ++
      (pyStrip g ++ ((g.dropWhile isSpaceC).reverse.takeWhile isSpaceC).reverse) := by
    rw [← h2, List.takeWhile_append_dropWhile]
  rw [h1]
  exact hasCI_append_right _ (hasCI_append_left _ h)

theorem searchLR_some_exists {lab : List Char} {after : List Char → Option (List Char)}
    {s v : List Char} (h : searchLR lab after s = some v) : ∃ t, after t = some v := by
  induction s with
  | nil => exact absurd h (by simp [searchLR])
  | cons c t ih =>
    rw [searchLR] at h
    by_cases hp : prefixCI lab (c :: t) = true
    · rw [if_pos hp] at h
      cases ha : after ((c :: t).drop lab.length) with
      | none =>
        rw [ha] at h
        exact ih h
      | some w =>
        rw [ha] at h
        exact ⟨_, ha.trans h⟩
    · rw [if_neg hp] at h
      exact ih h

theorem lazyCapture_spec {look : List Char → Bool} {s cap : List Char}
    (h : lazyCapture look s = some cap) :
    ∃ rest, s = cap ++ rest ∧ look rest = true ∧
      ∀ a b, cap = a ++ b → b ≠ [] → look (b ++ rest) = false := by
  induction s generalizing cap with
  | nil =>
    rw [lazyCapture] at h
    split_ifs at h with hl
    obtain rfl : cap = [] := (Option.some_inj.mp h).symm
    exact ⟨[], rfl, hl, fun a b hab hb => absurd (List.append_eq_nil.mp hab.symm).2 hb⟩
  | cons c t ih =>
    rw [lazyCapture] at h
    split_ifs at h with hl
    · obtain rfl : cap = [] := (Option.some_inj.mp h).symm
      exact ⟨c :: t, rfl, hl, fun a b hab hb => absurd (List.append_eq_nil.mp hab.symm).2 hb⟩
    · cases hlc : lazyCapture look t with
      | none =>
        rw [hlc] at h
        exact absurd h (by simp)
      | some cap' =>
        rw [hlc] at h
        have hcap : cap = c :: cap' := by
          have := Option.some_inj.mp (by simpa using h)
          exact this.symm
        subst hcap
        obtain ⟨rest, hs, hlook, hmin⟩ := ih hlc
        refine ⟨rest, by rw [hs]; rfl, hlook, ?_⟩
        intro a b hab hb
        cases a with
        | nil =>
          have hbeq : b = c :: cap' := by simpa using hab.symm
          have hbt : b ++ rest = c :: t := by rw [hbeq, hs]; rfl
          rw [hbt]
          exact Bool.eq_false_iff.mpr hl
        | cons a0 a' =>
          have h1 : cap' = a' ++ b := by
            have := congrArg List.tail hab
            simpa using this
          exact hmin a' b h1 hb

theorem digitsDotTok_shape {s g : List Char} (h : digitsDotTok s = some g) :
    g ≠ [] ∧ (∀ c ∈ g, isDigitC c = true ∨ c = '.') ∧ g.count '.' ≤ 1 ∧
      g.any isDigitC = true := by
  rw [digitsDotTok] at h
  by_cases he : (s.takeWhile isDigitC).isEmpty
  · rw [if_pos he] at h
    cases h
  · rw [if_neg he] at h
    have hne : s.takeWhile isDigitC ≠ [] := by simpa [List.isEmpty_iff] using he
    have hdig : ∀ c ∈ s.takeWhile isDigitC, isDigitC c = true :=
      fun c hc => List.mem_takeWhile_imp hc
    have hcount : (s.takeWhile isDigitC).count '.' = 0 := by
      rw [List.count_eq_zero]
      intro hmem
      exact absurd (hdig _ hmem) (by decide)
    obtain ⟨c0, hc0⟩ := List.exists_mem_of_ne_nil _ hne
    have hany : (s.takeWhile isDigitC).any isDigitC = true :=
      List.any_eq_true.mpr ⟨c0, hc0, hdig _ hc0⟩
    have hfirst : g = s.takeWhile isDigitC →
        g ≠ [] ∧ (∀ c ∈ g, isDigitC c = true ∨ c = '.') ∧ g.count '.' ≤ 1 ∧
          g.any isDigitC = true := by
      rintro rfl
      exact ⟨hne, fun c hc => Or.inl (hdig c hc), by rw [hcount]; exact Nat.zero_le 1, hany⟩
    split at h
    · by_cases h2 : ((‹List Char›.takeWhile isDigitC).isEmpty)
      · rw [if_pos h2] at h
        exact hfirst (Option.some_inj.mp h).symm
      · rw [if_neg h2] at h
        obtain rfl := (Option.some_inj.mp h).symm
        rename_i r2 heq
        have hdig2 : ∀ c ∈ r2.takeWhile isDigitC, isDigitC c = true :=
          fun c hc => List.mem_takeWhile_imp hc
        have hcount2 : (r2.takeWhile isDigitC).count '.' = 0 := by
          rw [List.count_eq_zero]
          intro hmem
          exact absurd (hdig2 _ hmem) (by decide)
        refine ⟨by simp [hne], ?_, ?_, ?_⟩
        · intro c hc
          rcases List.mem_append.mp hc with hc | hc
          · exact Or.inl (hdig c hc)
          · rcases List.mem_cons.mp hc with rfl | hc
            · exact Or.inr rfl
            · exact Or.inl (hdig2 c hc)
        · rw [List.count_append, hcount, List.count_cons]
          simp [hcount2]
        · exact List.any_eq_true.mpr ⟨c0, List.mem_append_left _ hc0, hdig _ hc0⟩
    · exact hfirst (Option.some_inj.mp h).symm

theorem dropWhile_eq_self_of {p : Char → Bool} {g : List Char}
    (h : ∀ c ∈ g, p c = false) : g.dropWhile p = g := by
  cases g with
  | nil => rfl
  | cons c t =>
    rw [List.dropWhile_cons, h c (List.mem_cons_self c t)]
    simp

theorem pyStrip_eq_self {g : List Char} (h : ∀ c ∈ g, isSpaceC c = false) :
    pyStrip g = g := by
  rw [pyStrip, dropWhile_eq_self_of h,
      dropWhile_eq_self_of (fun c hc => h c (List.mem_reverse.mp hc)),
      List.reverse_reverse]

theorem subNonNumeric_eq_self {g : List Char}
    (h : ∀ c ∈ g, isDigitC c = true ∨ c = '.') : subNonNumeric g = g := by
  rw [subNonNumeric, List.filter_eq_self]
  intro a ha
  rcases h a ha with hd | rfl
  · simp [hd]
  · decide

theorem isSpaceC_of_isDigitC {c : Char} (h : isDigitC c = true) : isSpaceC c = false := by
  by_contra hs
  have hs' : isSpaceC c = true := by simpa using hs
  rw [isSpaceC] at hs'
  simp only [Bool.or_eq_true, beq_iff_eq] at hs'
  rcases hs' with ((((rfl | rfl) | rfl) | rfl) | rfl) | rfl <;> exact absurd h (by decide)

theorem pyFloatDD_some {g : List Char} (hAll : ∀ c ∈ g, isDigitC c = true ∨ c = '.')
    (hAny : g.any isDigitC = true) (hCount : g.count '.' ≤ 1) :
    pyFloatDD g = some (numTokVal g) := by
  rw [pyFloatDD]
  split_ifs with hcond
  · rfl
  · exfalso
    apply hcond
    simp only [Bool.and_eq_true, decide_eq_true_eq, List.all_eq_true]
    refine ⟨⟨?_, hAny⟩, hCount⟩
    intro c hc
    rcases hAll c hc with hd | rfl
    · simp [hd]
    · decide

/-- C9: whenever one of the score patterns of `parse_evaluation`
(ollama/4o-mini variants, which share the embedding) matches, the capture
consists of digits with at most one dot, so the stray-character stripping is
the identity on it, `float()` succeeds, and the coerced score is a non-null
value — the `ValueError` branch is unreachable.  Consequently a matched probe
always yields a non-null score field. -/
theorem c9_score_coercion_total :
    (∀ lab text g, searchLR lab matchScoreAfterLabel text = some g →
      ∃ q, coerceScore (pyStrip g) = some q) ∧
    (∀ text g, searchLR authU matchScoreAfterLabel text = some g →
      ∃ q, (parse_evaluation text).authenticity_score = some q) ∧
    (∀ text g, searchLR sensU matchScoreAfterLabel text = some g →
      ∃ q, (parse_evaluation text).sensitivity_score = some q) ∧
    (∀ text g, searchLR harmU matchScoreAfterLabel text = some g →
      ∃ q, (parse_evaluation text).harmony_score = some q) := by
  have hmain : ∀ lab text g, searchLR lab matchScoreAfterLabel text = some g →
      ∃ q, coerceScore (pyStrip g) = some q := by
    intro lab text g h
    obtain ⟨t, ht⟩ := searchLR_some_exists h
    rw [matchScoreAfterLabel] at ht
    obtain ⟨hne, hAll, hCount, hAny⟩ := digitsDotTok_shape ht
    have hnospace : ∀ c ∈ g, isSpaceC c = false := by
      intro c hc
      rcases hAll c hc with hd | rfl
      · exact isSpaceC_of_isDigitC hd
      · decide
    rw [pyStrip_eq_self hnospace, coerceScore, subNonNumeric_eq_self hAll,
        pyFloatDD_some hAll hAny hCount]
    exact ⟨_, rfl⟩
  refine ⟨hmain, fun text g h => ?_, fun text g h => ?_, fun text g h => ?_⟩
  all_goals {
    obtain ⟨q, hq⟩ := hmain _ _ _ h
    refine ⟨q, ?_⟩
    show scoreField _ text = some q
    rw [scoreField, h]
    exact hq
  }

/-- Witness for C9 at a concrete matching text. -/
theorem c9_witness :
    searchLR authU matchScoreAfterLabel "AUTHENTICITY: 4 fine".data = some "4".data ∧
    (∃ q, coerceScore (pyStrip "4".data) = some q) :=
  ⟨by decide,
   c9_score_coercion_total.1 authU "AUTHENTICITY: 4 fine".data "4".data (by decide)⟩

theorem ciEq_newline_false {a c : Char} (ha : lcChar a ≠ '\n') (h : ciEq a c = true) :
    (c == '\n') = false := by
  by_contra hc
  have hc' : c = '\n' := by simpa using hc
  subst hc'
  rw [ciEq] at h
  have h2 : lcChar a = lcChar '\n' := by simpa using h
  rw [show lcChar '\n' = '\n' from by decide] at h2
  exact ha h2

theorem lookTerm_true_of_occurrence {labs : List (List Char)} {withEnd : Bool}
    {lab v rest : List Char} (hmem : lab ∈ labs) (hlabne : lab ≠ [])
    (hnl : lcChar (lab.headD 'x') ≠ '\n')
    (hv : prefixCI lab v = true) (hvne : v ≠ []) :
    lookTerm labs withEnd (v ++ rest) = true := by
  obtain ⟨c, v', rfl⟩ : ∃ c v', v = c :: v' := by
    cases v with
    | nil => exact absurd rfl hvne
    | cons c v' => exact ⟨c, v', rfl⟩
  obtain ⟨a, lab', rfl⟩ : ∃ a lab', lab = a :: lab' := by
    cases lab with
    | nil => exact absurd rfl hlabne
    | cons a lab' => exact ⟨a, lab', rfl⟩
  have hca : ciEq a c = true := by
    have hv' := hv
    simp only [prefixCI, Bool.and_eq_true] at hv'
    exact hv'.1
  have hcnl : (c == '\n') = false := ciEq_newline_false (by simpa using hnl) hca
  rw [lookTerm]
  show ((labs.any fun l => prefixCI l (((c :: v').append rest).dropWhile fun c => c == '\n')) ||
    (withEnd && (((c :: v').append rest).dropWhile fun c => c == '\n').isEmpty)) = true
  rw [show ((c :: v').append rest) = c :: (v' ++ rest) from rfl, List.dropWhile_cons, hcnl]
  simp only [Bool.false_eq_true, if_false, Bool.or_eq_true, List.any_eq_true]
  exact Or.inl ⟨a :: lab', hmem, prefixCI_extend rest hv⟩

/-- C10: a non-null authenticity reason produced by `parse_evaluation`
(ollama/4o-mini variants) contains no case-insensitive occurrence of
`SENSITIVITY` or `HARMONY`: the lazy capture stops at the first position where
the terminator lookahead holds, so any such occurrence would have ended the
capture earlier. -/
theorem c10_authenticity_reason_no_labels (text cap : List Char)
    (h : (parse_evaluation text).authenticity_reason = some cap) :
    hasCI sensU cap = false ∧ hasCI harmU cap = false := by
  have h' : (searchLR (authU ++ [':'])
      (matchReasonAfterLabel (lookTerm [sensU, harmU] true)) text).map pyStrip = some cap := h
  obtain ⟨g, hg, hcap⟩ := Option.map_eq_some'.mp h'
  obtain ⟨t, ht⟩ := searchLR_some_exists hg
  rw [matchReasonAfterLabel] at ht
  cases hfr : findRE t with
  | none =>
    rw [hfr] at ht
    cases ht
  | some r =>
    rw [hfr] at ht
    obtain ⟨rest, hsplit, hlook, hmin⟩ := lazyCapture_spec ht
    have key : ∀ lab, lab ∈ [sensU, harmU] → lab ≠ [] → lcChar (lab.headD 'x') ≠ '\n' →
        hasCI lab cap = false := by
      intro lab hmem hlabne hnl
      by_contra hb
      have hb' : hasCI lab cap = true := by simpa using hb
      have hg' : hasCI lab g = true := by
        rw [← hcap] at hb'
        exact hasCI_pyStrip hb'
      obtain ⟨u, v, rfl, hv⟩ := hasCI_iff.mp hg'
      have hvne : v ≠ [] := by
        intro h0
        rw [h0] at hv
        cases lab with
        | nil => exact absurd rfl hlabne
        | cons a lab' => exact absurd hv (by simp [prefixCI])
      have hfalse := hmin u v rfl hvne
      have htrue : lookTerm [sensU, harmU] true (v ++ rest) = true :=
        lookTerm_true_of_occurrence hmem hlabne hnl hv hvne
      exact absurd (hfalse.symm.trans htrue) (by decide)
    exact ⟨key sensU (by simp) (by decide) (by decide),
           key harmU (by simp) (by decide) (by decide)⟩

/-- Witness for C10 at a concrete input whose reason prose mentions the word
"sensitivity" and is truncated before it. -/
theorem c10_witness :
    (parse_evaluation "AUTHENTICITY: 4\nReason: a very sensitivity-aware dish.".data).authenticity_reason =
      some "a very".data ∧
    hasCI sensU "a very".data = false ∧ hasCI harmU "a very".data = false :=
  ⟨by decide,
   c10_authenticity_reason_no_labels
     "AUTHENTICITY: 4\nReason: a very sensitivity-aware dish.".data "a very".data (by decide)⟩

/-! ## Region-skipping infrastructure for the leftmost-match searches -/

theorem lcChar_plain {c : Char} (h : plainC c = true) : lcChar c = c := by
  rw [plainC] at h
  simp only [Bool.or_eq_true, beq_iff_eq] at h
  rcases h with ((hs | hd) | rfl) | rfl
  · rw [isSpaceC] at hs
    simp only [Bool.or_eq_true, beq_iff_eq] at hs
    rcases hs with ((((rfl | rfl) | rfl) | rfl) | rfl) | rfl <;> decide
  · simp only [isDigitC, Bool.and_eq_true, decide_eq_true_eq] at hd
    rw [lcChar, if_neg]
    simp only [Bool.and_eq_true, decide_eq_true_eq, not_and]
    omega
  · decide
  · decide

theorem ciEq_plain_false {a c : Char} (hc : plainC c = true)
    (ha : plainC (lcChar a) = false) : ciEq a c = false := by
  by_contra hb
  have hb' : ciEq a c = true := by simpa using hb
  rw [ciEq] at hb'
  have h2 : lcChar a = lcChar c := by simpa using hb'
  rw [lcChar_plain hc] at h2
  rw [h2] at ha
  exact absurd hc (by simp [ha])

theorem WSp_plain {w : List Char} (h : WSp w) : ∀ c ∈ w, plainC c = true := by
  intro c hc
  simp [plainC, h c hc]

theorem NLrun_plain {n : List Char} (h : NLrun n) : ∀ c ∈ n, plainC c = true := by
  intro c hc
  rw [h.2 c hc]
  decide

theorem NLrun_cons {n : List Char} (h : NLrun n) : ∃ n', n = '\n' :: n' := by
  cases hn : n with
  | nil => exact absurd hn h.1
  | cons c n' => exact ⟨n', by rw [← h.2 c (by rw [hn]; exact List.mem_cons_self c n')]⟩

theorem NLrun_beq {n : List Char} (h : NLrun n) : ∀ c ∈ n, (c == '\n') = true := by
  intro c hc
  simp [h.2 c hc]

theorem NumTok_shape {S : List Char} (h : NumTok S) :
    S ≠ [] ∧ (∀ c ∈ S, isDigitC c = true ∨ c = '.') ∧ S.count '.' ≤ 1 ∧
      S.any isDigitC = true := by
  cases h with
  | int D hne hdig =>
    obtain ⟨c0, hc0⟩ := List.exists_mem_of_ne_nil _ hne
    refine ⟨hne, fun c hc => Or.inl (hdig c hc), ?_, List.any_eq_true.mpr ⟨c0, hc0, hdig _ hc0⟩⟩
    rw [List.count_eq_zero.mpr (fun hmem => absurd (hdig _ hmem) (by decide))]
    exact Nat.zero_le 1
  | dec D F hne hFne hdig hFdig =>
    obtain ⟨c0, hc0⟩ := List.exists_mem_of_ne_nil _ hne
    refine ⟨by simp [hne], ?_, ?_, ?_⟩
    · intro c hc
      rcases List.mem_append.mp hc with hc | hc
      · exact Or.inl (hdig c hc)
      · rcases List.mem_cons.mp hc with rfl | hc
        · exact Or.inr rfl
        · exact Or.inl (hFdig c hc)
    · rw [List.count_append, List.count_cons,
          List.count_eq_zero.mpr (fun hmem => absurd (hdig _ hmem) (by decide)),
          List.count_eq_zero.mpr (fun hmem => absurd (hFdig _ hmem) (by decide))]
      simp
    · exact List.any_eq_true.mpr ⟨c0, List.mem_append_left _ hc0, hdig _ hc0⟩

theorem NumTok_plain {S : List Char} (h : NumTok S) : ∀ c ∈ S, plainC c = true := by
  intro c hc
  rcases (NumTok_shape h).2.1 c hc with hd | rfl
  · simp [plainC, hd]
  · decide

theorem IntTok_plain {S : List Char} (h : IntTok S) : ∀ c ∈ S, plainC c = true := by
  intro c hc
  simp [plainC, h.2 c hc]

theorem prefixCI_self (lab z : List Char) : prefixCI lab (lab ++ z) = true := by
  induction lab with
  | nil => rfl
  | cons a as ih =>
    show (ciEq a a && prefixCI as (as ++ z)) = true
    simp [ciEq, ih]

theorem prefixCI_longer_false {lab s : List Char} (h : s.length < lab.length) :
    prefixCI lab s = false := by
  induction lab generalizing s with
  | nil => simp at h
  | cons a as ih =>
    cases s with
    | nil => rfl
    | cons b bs =>
      show (ciEq a b && prefixCI as bs) = false
      rw [ih (by simpa using h)]
      simp

theorem prefixCI_mono {lab ext v : List Char} (h : prefixCI (lab ++ ext) v = true) :
    prefixCI lab v = true := by
  induction lab generalizing v with
  | nil => rfl
  | cons a as ih =>
    cases v with
    | nil => exact absurd h (by simp [prefixCI])
    | cons b bs =>
      have h' : (ciEq a b && prefixCI (as ++ ext) bs) = true := h
      simp only [Bool.and_eq_true] at h'
      show (ciEq a b && prefixCI as bs) = true
      simp [h'.1, ih h'.2]

theorem hasCI_mono_ext {lab ext r : List Char} (h : hasCI lab r = false) :
    hasCI (lab ++ ext) r = false := by
  by_contra hb
  have hb' : hasCI (lab ++ ext) r = true := by simpa using hb
  obtain ⟨u, v, rfl, hv⟩ := hasCI_iff.mp hb'
  have : hasCI lab (u ++ v) = true := hasCI_iff.mpr ⟨u, v, rfl, prefixCI_mono hv⟩
  rw [h] at this
  exact absurd this (by decide)

theorem prefixCI_false_of_pseudoPrefix_false {lab t : List Char} (z : List Char)
    (h : pseudoPrefix lab t = false) : prefixCI lab (t ++ z) = false := by
  induction lab generalizing t with
  | nil => exact absurd h (by simp [pseudoPrefix])
  | cons a as ih =>
    cases t with
    | nil => exact absurd h (by simp [pseudoPrefix])
    | cons b bs =>
      have h' : (ciEq a b && pseudoPrefix as bs) = false := h
      show (ciEq a b && prefixCI as (bs ++ z)) = false
      cases hab : ciEq a b with
      | false => simp [hab]
      | true =>
        rw [hab] at h'
        simp only [Bool.true_and] at h' ⊢
        exact ih h'

theorem searchLR_skip {lab : List Char} {after : List Char → Option (List Char)}
    {u v : List Char}
    (h : ∀ u₁ u₂, u = u₁ ++ u₂ → u₂ ≠ [] → prefixCI lab (u₂ ++ v) = false) :
    searchLR lab after (u ++ v) = searchLR lab after v := by
  induction u with
  | nil => rfl
  | cons c t ih =>
    show searchLR lab after (c :: (t ++ v)) = _
    rw [searchLR]
    have hp : prefixCI lab (c :: (t ++ v)) = false := h [] (c :: t) rfl (by simp)
    rw [if_neg (by simp [hp])]
    exact ih (fun u₁ u₂ heq hne => h (c :: u₁) u₂ (by rw [heq]; rfl) hne)

theorem searchLR_self {lab z : List Char} {after : List Char → Option (List Char)}
    {v₀ : List Char} (hlab : lab ≠ []) (hafter : after z = some v₀) :
    searchLR lab after (lab ++ z) = some v₀ := by
  cases lab with
  | nil => exact absurd rfl hlab
  | cons a lab' =>
    show searchLR (a :: lab') after (a :: (lab' ++ z)) = some v₀
    rw [searchLR, if_pos (by exact prefixCI_self (a :: lab') z)]
    rw [show (a :: (lab' ++ z)).drop (a :: lab').length = z from List.drop_left (a :: lab') z]
    rw [hafter]

theorem searchLR_none_of_hasCI_false {lab : List Char}
    {after : List Char → Option (List Char)} {s : List Char}
    (h : hasCI lab s = false) : searchLR lab after s = none := by
  induction s with
  | nil => rfl
  | cons c t ih =>
    rw [hasCI] at h
    simp only [Bool.or_eq_false_iff] at h
    rw [searchLR, if_neg (by simp [h.1])]
    exact ih h.2

theorem searchLR_skip_lit {lab lit : List Char} {after : List Char → Option (List Char)}
    {v : List Char}
    (h : lit.tails.all (fun t => t.isEmpty || !pseudoPrefix lab t) = true) :
    searchLR lab after (lit ++ v) = searchLR lab after v := by
  apply searchLR_skip
  intro u₁ u₂ heq hne
  have hs : u₂ ∈ lit.tails := (List.mem_tails u₂ lit).mpr ⟨u₁, heq.symm⟩
  have h2 := List.all_eq_true.mp h u₂ hs
  simp only [Bool.or_eq_true, List.isEmpty_iff, Bool.not_eq_true'] at h2
  rcases h2 with h2 | h2
  · exact absurd h2 hne
  · exact prefixCI_false_of_pseudoPrefix_false v h2

theorem searchLR_skip_plain {a : Char} {lab' : List Char}
    {after : List Char → Option (List Char)} {w v : List Char}
    (ha : plainC (lcChar a) = false) (hw : ∀ c ∈ w, plainC c = true) :
    searchLR (a :: lab') after (w ++ v) = searchLR (a :: lab') after v := by
  apply searchLR_skip
  intro u₁ u₂ heq hne
  obtain ⟨c, u₂', rfl⟩ := List.exists_cons_of_ne_nil hne
  have hc : plainC c = true := hw c (by rw [heq]; exact List.mem_append_right _ (List.mem_cons_self c u₂'))
  show (ciEq a c && prefixCI lab' (u₂' ++ v)) = false
  rw [ciEq_plain_false hc ha]
  simp

theorem prefix_false_suffix_region {lab r next : List Char} (hno : hasCI lab r = false)
    (hnext : next = [] ∨ ∃ c z, next = c :: z ∧ ∀ x ∈ lab, ciEq x c = false) :
    ∀ d, d <:+ r → d ≠ [] → prefixCI lab (d ++ next) = false := by
  intro d hd hdne
  by_contra hb
  have hp : prefixCI lab (d ++ next) = true := by simpa using hb
  by_cases hlen : lab.length ≤ d.length
  · rw [prefixCI_append_long next hlen] at hp
    obtain ⟨u₁, hu₁⟩ := hd
    have : hasCI lab r = true := by
      rw [← hu₁]
      exact hasCI_append_right u₁ (hasCI_iff.mpr ⟨[], d, rfl, hp⟩)
    rw [hno] at this
    exact absurd this (by decide)
  · have hlen' : d.length < lab.length := by omega
    have h2 := prefixCI_append_right hlen' hp
    cases hdrop : lab.drop d.length with
    | nil =>
      have := congrArg List.length hdrop
      rw [List.length_drop] at this
      simp at this
      omega
    | cons x ls =>
      rw [hdrop] at h2
      rcases hnext with rfl | ⟨c, z, rfl, hc⟩
      · exact absurd h2 (by simp [prefixCI])
      · have h3 : (ciEq x c && prefixCI ls z) = true := h2
        simp only [Bool.and_eq_true] at h3
        have hx : x ∈ lab := List.drop_subset d.length lab (by rw [hdrop]; exact List.mem_cons_self x ls)
        rw [hc x hx] at h3
        exact absurd h3.1 (by decide)

theorem searchLR_skip_clean {lab : List Char} {after : List Char → Option (List Char)}
    {r next : List Char} (hno : hasCI lab r = false)
    (hnext : next = [] ∨ ∃ c z, next = c :: z ∧ ∀ x ∈ lab, ciEq x c = false) :
    searchLR lab after (r ++ next) = searchLR lab after next := by
  apply searchLR_skip
  intro u₁ u₂ heq hne
  exact prefix_false_suffix_region hno hnext u₂ ⟨u₁, heq.symm⟩ hne

theorem findRE_skip {u v : List Char}
    (h : ∀ u₁ u₂, u = u₁ ++ u₂ → u₂ ≠ [] →
      prefixCI reasonU (u₂ ++ v) = false ∧ prefixCI explU (u₂ ++ v) = false) :
    findRE (u ++ v) = findRE v := by
  induction u with
  | nil => rfl
  | cons c t ih =>
    show findRE (c :: (t ++ v)) = _
    rw [findRE]
    have hp1 : prefixCI reasonU (c :: (t ++ v)) = false := (h [] (c :: t) rfl (by simp)).1
    have hp2 : prefixCI explU (c :: (t ++ v)) = false := (h [] (c :: t) rfl (by simp)).2
    rw [if_neg (by simp [hp1]), if_neg (by simp [hp2])]
    exact ih (fun u₁ u₂ heq hne => h (c :: u₁) u₂ (by rw [heq]; rfl) hne)

theorem findRE_skip_plain {w v : List Char} (hw : ∀ c ∈ w, plainC c = true) :
    findRE (w ++ v) = findRE v := by
  apply findRE_skip
  intro u₁ u₂ heq hne
  obtain ⟨c, u₂', rfl⟩ := List.exists_cons_of_ne_nil hne
  have hc : plainC c = true :=
    hw c (by rw [heq]; exact List.mem_append_right _ (List.mem_cons_self c u₂'))
  constructor
  · show (ciEq 'R' c && prefixCI ['e', 'a', 's', 'o', 'n', ':'] (u₂' ++ v)) = false
    rw [ciEq_plain_false hc (by decide)]
    simp
  · show (ciEq 'E' c && prefixCI ['x', 'p', 'l', 'a', 'n', 'a', 't', 'i', 'o', 'n', ':'] (u₂' ++ v)) = false
    rw [ciEq_plain_false hc (by decide)]
    simp

theorem findRE_self (z : List Char) : findRE (reasonU ++ z) = some z := by
  show findRE ('R' :: (['e', 'a', 's', 'o', 'n', ':'] ++ z)) = some z
  rw [findRE, if_pos (by exact prefixCI_self reasonU z)]
  rw [show ('R' :: (['e', 'a', 's', 'o', 'n', ':'] ++ z)).drop 7 = z from
    List.drop_left reasonU z]

theorem reasonScanG_skip {look : List Char → Bool} {u v : List Char}
    (h : ∀ u₁ u₂, u = u₁ ++ u₂ → u₂ ≠ [] → prefixCI reasonU (u₂ ++ v) = false) :
    reasonScanG look (u ++ v) = reasonScanG look v := by
  induction u with
  | nil => rfl
  | cons c t ih =>
    show reasonScanG look (c :: (t ++ v)) = _
    rw [reasonScanG]
    have hp : prefixCI reasonU (c :: (t ++ v)) = false := h [] (c :: t) rfl (by simp)
    rw [if_neg (by simp [hp])]
    exact ih (fun u₁ u₂ heq hne => h (c :: u₁) u₂ (by rw [heq]; rfl) hne)

theorem reasonScanG_skip_plain {look : List Char → Bool} {w v : List Char}
    (hw : ∀ c ∈ w, plainC c = true) :
    reasonScanG look (w ++ v) = reasonScanG look v := by
  apply reasonScanG_skip
  intro u₁ u₂ heq hne
  obtain ⟨c, u₂', rfl⟩ := List.exists_cons_of_ne_nil hne
  have hc : plainC c = true :=
    hw c (by rw [heq]; exact List.mem_append_right _ (List.mem_cons_self c u₂'))
  show (ciEq 'R' c && prefixCI ['e', 'a', 's', 'o', 'n', ':'] (u₂' ++ v)) = false
  rw [ciEq_plain_false hc (by decide)]
  simp

theorem reasonToEndG_skip {u v : List Char}
    (h : ∀ u₁ u₂, u = u₁ ++ u₂ → u₂ ≠ [] → prefixCI reasonU (u₂ ++ v) = false) :
    reasonToEndG (u ++ v) = reasonToEndG v := by
  induction u with
  | nil => rfl
  | cons c t ih =>
    show reasonToEndG (c :: (t ++ v)) = _
    rw [reasonToEndG]
    have hp : prefixCI reasonU (c :: (t ++ v)) = false := h [] (c :: t) rfl (by simp)
    rw [if_neg (by simp [hp])]
    exact ih (fun u₁ u₂ heq hne => h (c :: u₁) u₂ (by rw [heq]; rfl) hne)

theorem reasonToEndG_skip_plain {w v : List Char} (hw : ∀ c ∈ w, plainC c = true) :
    reasonToEndG (w ++ v) = reasonToEndG v := by
  apply reasonToEndG_skip
  intro u₁ u₂ heq hne
  obtain ⟨c, u₂', rfl⟩ := List.exists_cons_of_ne_nil hne
  have hc : plainC c = true :=
    hw c (by rw [heq]; exact List.mem_append_right _ (List.mem_cons_self c u₂'))
  show (ciEq 'R' c && prefixCI ['e', 'a', 's', 'o', 'n', ':'] (u₂' ++ v)) = false
  rw [ciEq_plain_false hc (by decide)]
  simp

theorem reasonToEndG_self (z : List Char) :
    reasonToEndG (reasonU ++ z) = some (z.dropWhile isSpaceC) := by
  show reasonToEndG ('R' :: (['e', 'a', 's', 'o', 'n', ':'] ++ z)) = _
  rw [reasonToEndG, if_pos (by exact prefixCI_self reasonU z)]
  rw [show ('R' :: (['e', 'a', 's', 'o', 'n', ':'] ++ z)).drop 7 = z from
    List.drop_left reasonU z]

theorem lazyCapture_skip {look : List Char → Bool} {u v : List Char}
    (h : ∀ u₁ u₂, u = u₁ ++ u₂ → u₂ ≠ [] → look (u₂ ++ v) = false) :
    lazyCapture look (u ++ v) = (lazyCapture look v).map (u ++ ·) := by
  induction u with
  | nil =>
    show lazyCapture look v = _
    cases lazyCapture look v <;> simp
  | cons c t ih =>
    show lazyCapture look (c :: (t ++ v)) = _
    rw [lazyCapture]
    have hl : look (c :: (t ++ v)) = false := h [] (c :: t) rfl (by simp)
    rw [if_neg (by simp [hl])]
    rw [ih (fun u₁ u₂ heq hne => h (c :: u₁) u₂ (by rw [heq]; rfl) hne)]
    cases lazyCapture look v <;> simp

theorem lazyCapture_of_look {look : List Char → Bool} {s : List Char}
    (h : look s = true) : lazyCapture look s = some [] := by
  cases s with
  | nil => rw [lazyCapture, if_pos h]
  | cons c t => rw [lazyCapture, if_pos h]

theorem lazyCapture_ws_exists {look : List Char → Bool} (hnil : look [] = true)
    {w : List Char} (hw : ∀ c ∈ w, isSpaceC c = true) :
    ∃ w', lazyCapture look w = some w' ∧ ∀ c ∈ w', isSpaceC c = true := by
  induction w with
  | nil => exact ⟨[], by rw [lazyCapture, if_pos hnil], by simp⟩
  | cons c t ih =>
    by_cases hl : look (c :: t) = true
    · exact ⟨[], by rw [lazyCapture, if_pos hl], by simp⟩
    · obtain ⟨w', hw', hws⟩ := ih (fun x hx => hw x (List.mem_cons_of_mem _ hx))
      refine ⟨c :: w', ?_, ?_⟩
      · rw [lazyCapture, if_neg hl, hw']
        rfl
      · intro x hx
        rcases List.mem_cons.mp hx with rfl | hx
        · exact hw x (List.mem_cons_self x t)
        · exact hws x hx

theorem dropWhile_suffix_self {p : Char → Bool} (l : List Char) : l.dropWhile p <:+ l := by
  induction l with
  | nil => exact ⟨[], rfl⟩
  | cons c t ih =>
    rw [List.dropWhile_cons]
    by_cases hc : p c = true
    · rw [if_pos hc]
      obtain ⟨u, hu⟩ := ih
      exact ⟨c :: u, by rw [List.cons_append, hu]⟩
    · rw [if_neg hc]

theorem dropWhile_append_strict {p : Char → Bool} {b X : List Char}
    (hx : ∃ x ∈ b, p x = false) :
    (b ++ X).dropWhile p = b.dropWhile p ++ X ∧ b.dropWhile p ≠ [] := by
  induction b with
  | nil => simp at hx
  | cons c t ih =>
    by_cases hc : p c = true
    · obtain ⟨x, hxm, hxp⟩ := hx
      have hxt : x ∈ t := by
        rcases List.mem_cons.mp hxm with rfl | hxt
        · rw [hc] at hxp
          exact absurd hxp (by decide)
        · exact hxt
      obtain ⟨ih1, ih2⟩ := ih ⟨x, hxt, hxp⟩
      constructor
      · show (c :: (t ++ X)).dropWhile p = _
        rw [List.dropWhile_cons, if_pos hc, ih1, List.dropWhile_cons, if_pos hc]
      · rw [List.dropWhile_cons, if_pos hc]
        exact ih2
    · constructor
      · show (c :: (t ++ X)).dropWhile p = _
        rw [List.dropWhile_cons, if_neg hc, List.dropWhile_cons, if_neg hc]
        rfl
      · rw [List.dropWhile_cons, if_neg hc]
        simp

theorem takeWhile_stop {p : Char → Bool} {D rest : List Char} (hD : ∀ x ∈ D, p x = true)
    (hrest : rest = [] ∨ ∃ c z, rest = c :: z ∧ p c = false) :
    (D ++ rest).takeWhile p = D ∧ (D ++ rest).dropWhile p = rest := by
  induction D with
  | nil =>
    rcases hrest with rfl | ⟨c, z, rfl, hc⟩
    · exact ⟨rfl, rfl⟩
    · show (c :: z).takeWhile p = [] ∧ (c :: z).dropWhile p = c :: z
      rw [List.takeWhile_cons, List.dropWhile_cons, if_neg (by simp [hc]), if_neg (by simp [hc])]
      exact ⟨rfl, rfl⟩
  | cons d D' ih =>
    have hd : p d = true := hD d (List.mem_cons_self d D')
    obtain ⟨ih1, ih2⟩ := ih (fun x hx => hD x (List.mem_cons_of_mem _ hx))
    constructor
    · show (d :: (D' ++ rest)).takeWhile p = d :: D'
      rw [List.takeWhile_cons, if_pos hd, ih1]
    · show (d :: (D' ++ rest)).dropWhile p = rest
      rw [List.dropWhile_cons, if_pos hd, ih2]

theorem dropWhile_all_nil {p : Char → Bool} {w : List Char} (hw : ∀ c ∈ w, p c = true) :
    w.dropWhile p = [] := by
  induction w with
  | nil => rfl
  | cons c t ih =>
    rw [List.dropWhile_cons, if_pos (hw c (List.mem_cons_self c t))]
    exact ih (fun x hx => hw x (List.mem_cons_of_mem _ hx))

theorem pyStrip_eq_self_edge {r : List Char} (h1 : noLeadWS r = true)
    (h2 : noTrailWS r = true) : pyStrip r = r := by
  cases r with
  | nil => rfl
  | cons c t =>
    rw [pyStrip]
    have hc : isSpaceC c = false := by
      rw [noLeadWS] at h1
      simpa using h1
    rw [List.dropWhile_cons, if_neg (by simp [hc])]
    cases hrev : (c :: t).reverse with
    | nil => exact absurd hrev (by simp)
    | cons c' t' =>
      have hc' : isSpaceC c' = false := by
        rw [noTrailWS, hrev] at h2
        simpa using h2
      rw [List.dropWhile_cons, if_neg (by simp [hc']), ← hrev, List.reverse_reverse]

theorem pyStrip_append_ws {r w : List Char} (h1 : noLeadWS r = true)
    (h2 : noTrailWS r = true) (hw : ∀ c ∈ w, isSpaceC c = true) :
    pyStrip (r ++ w) = r := by
  cases r with
  | nil =>
    rw [pyStrip]
    show ((w.dropWhile isSpaceC).reverse.dropWhile isSpaceC).reverse = []
    rw [dropWhile_all_nil hw]
    rfl
  | cons c t =>
    rw [pyStrip]
    have hc : isSpaceC c = false := by
      rw [noLeadWS] at h1
      simpa using h1
    show ((((c :: t) ++ w).dropWhile isSpaceC).reverse.dropWhile isSpaceC).reverse = c :: t
    rw [show ((c :: t) ++ w) = c :: (t ++ w) from rfl, List.dropWhile_cons,
        if_neg (by simp [hc]), show (c :: (t ++ w)) = (c :: t) ++ w from rfl,
        List.reverse_append, List.dropWhile_append_of_pos
          (by intro a ha; exact hw a (List.mem_reverse.mp ha))]
    cases hrev : (c :: t).reverse with
    | nil => exact absurd hrev (by simp)
    | cons c' t' =>
      have hc' : isSpaceC c' = false := by
        rw [noTrailWS, hrev] at h2
        simpa using h2
      rw [List.dropWhile_cons, if_neg (by simp [hc']), ← hrev, List.reverse_reverse]

theorem lookTerm_false_in_clean {labs : List (List Char)} {withEnd : Bool}
    {r next : List Char} (hTrail : noTrailWS r = true)
    (hno : ∀ lab ∈ labs, hasCI lab r = false)
    (hnext : next = [] ∨ ∃ c z, next = c :: z ∧ ∀ lab ∈ labs, ∀ x ∈ lab, ciEq x c = false) :
    ∀ u₁ u₂, r = u₁ ++ u₂ → u₂ ≠ [] → lookTerm labs withEnd (u₂ ++ next) = false := by
  intro u₁ u₂ heq hne
  have hlast : ∃ x ∈ u₂, (fun c => c == '\n') x = false := by
    obtain ⟨c', t', hrev⟩ : ∃ c' t', u₂.reverse = c' :: t' := by
      cases hu : u₂.reverse with
      | nil => exact absurd (by simpa using congrArg List.reverse hu) hne
      | cons c' t' => exact ⟨c', t', rfl⟩
    have hcr : isSpaceC c' = false := by
      rw [noTrailWS, heq, List.reverse_append, hrev] at hTrail
      simpa using hTrail
    refine ⟨c', by rw [← List.mem_reverse, hrev]; exact List.mem_cons_self c' t', ?_⟩
    by_contra hb
    have hb2 : c' = '\n' := by simpa using hb
    rw [hb2] at hcr
    exact absurd hcr (by decide)
  obtain ⟨hdw, hdne⟩ := dropWhile_append_strict (p := fun c => c == '\n') (X := next) hlast
  have hd : u₂.dropWhile (fun c => c == '\n') <:+ r :=
    (dropWhile_suffix_self u₂).trans ⟨u₁, heq.symm⟩
  rw [lookTerm]
  show ((labs.any fun l => prefixCI l ((u₂ ++ next).dropWhile fun c => c == '\n')) ||
    (withEnd && ((u₂ ++ next).dropWhile fun c => c == '\n').isEmpty)) = false
  rw [hdw]
  simp only [Bool.or_eq_false_iff]
  constructor
  · by_contra hb
    have hb' : (labs.any fun l => prefixCI l (u₂.dropWhile (fun c => c == '\n') ++ next)) = true := by
      simpa using hb
    obtain ⟨lab, hmem, hp⟩ := List.any_eq_true.mp hb'
    have hnext' : next = [] ∨ ∃ c z, next = c :: z ∧ ∀ x ∈ lab, ciEq x c = false := by
      rcases hnext with rfl | ⟨c, z, rfl, hc⟩
      · exact Or.inl rfl
      · exact Or.inr ⟨c, z, rfl, fun x hx => hc lab hmem x hx⟩
    have := prefix_false_suffix_region (hno lab hmem) hnext' _ hd hdne
    rw [this] at hp
    exact absurd hp (by decide)
  · obtain ⟨x, d', hdd⟩ := List.exists_cons_of_ne_nil hdne
    rw [hdd]
    simp

theorem lookEnd_false_in_clean {r wE : List Char} (hTrail : noTrailWS r = true) :
    ∀ u₁ u₂, r = u₁ ++ u₂ → u₂ ≠ [] → lookEnd (u₂ ++ wE) = false := by
  intro u₁ u₂ heq hne
  rw [lookEnd]
  simp only [Bool.or_eq_false_iff]
  constructor
  · rw [beq_eq_false_iff_ne]
    intro h0
    exact hne (List.append_eq_nil.mp h0).1
  · rw [beq_eq_false_iff_ne]
    intro h1
    obtain ⟨c, t, rfl⟩ := List.exists_cons_of_ne_nil hne
    have h1' : c :: (t ++ wE) = ['\n'] := by simpa using h1
    injection h1' with hc ht
    obtain ⟨rfl, -⟩ := List.append_eq_nil.mp ht
    subst hc
    rw [noTrailWS, heq, List.reverse_append] at hTrail
    simp at hTrail
    exact absurd hTrail (by decide)

theorem lookTerm_true_after_nl {labs : List (List Char)} {withEnd : Bool}
    {n rest lab : List Char} (hn : ∀ c ∈ n, (c == '\n') = true)
    (hmem : lab ∈ labs) (hlabne : lab ≠ []) (hnl : lcChar (lab.headD 'x') ≠ '\n')
    (hpre : prefixCI lab rest = true) :
    lookTerm labs withEnd (n ++ rest) = true := by
  obtain ⟨a, lab', rfl⟩ := List.exists_cons_of_ne_nil hlabne
  obtain ⟨c, rest', rfl⟩ : ∃ c rest', rest = c :: rest' := by
    cases rest with
    | nil => exact absurd hpre (by simp [prefixCI])
    | cons c rest' => exact ⟨c, rest', rfl⟩
  have hca : ciEq a c = true := by
    have h' : (ciEq a c && prefixCI lab' rest') = true := hpre
    simp only [Bool.and_eq_true] at h'
    exact h'.1
  have hcnl : (c == '\n') = false := ciEq_newline_false (by simpa using hnl) hca
  rw [lookTerm]
  show ((labs.any fun l => prefixCI l ((n ++ c :: rest').dropWhile fun c => c == '\n')) ||
    (withEnd && ((n ++ c :: rest').dropWhile fun c => c == '\n').isEmpty)) = true
  rw [List.dropWhile_append_of_pos hn, List.dropWhile_cons, if_neg (by simp [hcnl])]
  simp only [Bool.or_eq_true]
  exact Or.inl (List.any_eq_true.mpr ⟨a :: lab', hmem, hpre⟩)

theorem digit_not_mark {d : Char} (h : isDigitC d = true) : d ≠ '*' ∧ d ≠ '#' :=
  ⟨fun hh => by rw [hh] at h; exact absurd h (by decide),
   fun hh => by rw [hh] at h; exact absurd h (by decide)⟩

theorem afterMark_eq_of {c : Char} (t : List Char) (h1 : c ≠ '*') (h2 : c ≠ '#') :
    afterMark (c :: t) = c :: t := by
  rw [afterMark]
  exact if_neg (by simp [h1, h2])

theorem digitsDotTok_int {D rest : List Char} (hne : D ≠ [])
    (hdig : ∀ c ∈ D, isDigitC c = true)
    (hrest : ∃ c z, rest = c :: z ∧ isDigitC c = false ∧ c ≠ '.') :
    digitsDotTok (D ++ rest) = some D := by
  obtain ⟨c, z, rfl, hc1, hc2⟩ := hrest
  obtain ⟨htake, hdrop⟩ := takeWhile_stop (p := isDigitC) hdig (Or.inr ⟨c, z, rfl, hc1⟩)
  rw [digitsDotTok, htake, hdrop, if_neg (by simp [List.isEmpty_iff, hne])]
  split
  · rename_i r2 heqq
    injection heqq with hc3 _
    exact absurd hc3 hc2
  · rfl

theorem digitsDotTok_dec {D F rest : List Char} (hne : D ≠ []) (hFne : F ≠ [])
    (hdig : ∀ c ∈ D, isDigitC c = true) (hFdig : ∀ c ∈ F, isDigitC c = true)
    (hrest : ∃ c z, rest = c :: z ∧ isDigitC c = false ∧ c ≠ '.') :
    digitsDotTok ((D ++ '.' :: F) ++ rest) = some (D ++ '.' :: F) := by
  obtain ⟨c, z, rfl, hc1, hc2⟩ := hrest
  have hassoc : (D ++ '.' :: F) ++ (c :: z) = D ++ ('.' :: (F ++ c :: z)) := by simp
  rw [hassoc]
  obtain ⟨htake, hdrop⟩ := takeWhile_stop (p := isDigitC) hdig
    (Or.inr ⟨'.', F ++ c :: z, rfl, by decide⟩)
  rw [digitsDotTok, htake, hdrop, if_neg (by simp [List.isEmpty_iff, hne])]
  split
  · rename_i r2 heqq
    injection heqq with _ hr2
    subst hr2
    obtain ⟨htake2, _⟩ := takeWhile_stop (p := isDigitC) hFdig (Or.inr ⟨c, z, rfl, hc1⟩)
    rw [htake2, if_neg (by simp [List.isEmpty_iff, hFne])]
  · rename_i heqq
    exact absurd rfl (heqq (F ++ c :: z))

theorem matchScore_family {w S rest : List Char} (hw : WSp w) (hS : NumTok S)
    (hrest : ∃ c z, rest = c :: z ∧ isSpaceC c = true) :
    matchScoreAfterLabel ([':'] ++ (w ++ (S ++ rest))) = some S := by
  obtain ⟨cr, zr, rfl, hcr⟩ := hrest
  have hcrd : isDigitC cr = false := by
    cases hdc : isDigitC cr with
    | false => rfl
    | true =>
      rw [isSpaceC_of_isDigitC hdc] at hcr
      exact absurd hcr (by decide)
  have hcrdot : cr ≠ '.' := by
    intro hh
    rw [hh] at hcr
    exact absurd hcr (by decide)
  have hrest' : ∃ c z, (cr :: zr : List Char) = c :: z ∧ isDigitC c = false ∧ c ≠ '.' :=
    ⟨cr, zr, rfl, hcrd, hcrdot⟩
  obtain ⟨d, S', hSd, hdd⟩ : ∃ d S', S = d :: S' ∧ isDigitC d = true := by
    cases hS with
    | int D hne hdig =>
      obtain ⟨d, D', rfl⟩ := List.exists_cons_of_ne_nil hne
      exact ⟨d, D', rfl, hdig d (List.mem_cons_self d D')⟩
    | dec D F hne hFne hdig hFdig =>
      obtain ⟨d, D', rfl⟩ := List.exists_cons_of_ne_nil hne
      exact ⟨d, D' ++ '.' :: F, by simp, hdig d (List.mem_cons_self d D')⟩
  have hstop1 : (S ++ (cr :: zr)).dropWhile isSpaceC = S ++ (cr :: zr) := by
    rw [hSd]
    show (d :: (S' ++ cr :: zr)).dropWhile isSpaceC = _
    rw [List.dropWhile_cons, if_neg (by simp [isSpaceC_of_isDigitC hdd])]
    rfl
  have hstop2 : afterMark (S ++ (cr :: zr)) = S ++ (cr :: zr) := by
    rw [hSd]
    show afterMark (d :: (S' ++ cr :: zr)) = _
    exact afterMark_eq_of _ (digit_not_mark hdd).1 (digit_not_mark hdd).2
  rw [matchScoreAfterLabel,
      show afterColon ([':'] ++ (w ++ (S ++ (cr :: zr)))) = w ++ (S ++ (cr :: zr)) from rfl,
      List.dropWhile_append_of_pos hw, hstop1, hstop2, hstop1]
  cases hS with
  | int D hne hdig => exact digitsDotTok_int hne hdig hrest'
  | dec D F hne hFne hdig hFdig => exact digitsDotTok_dec hne hFne hdig hFdig hrest'

theorem digitsTok_int {D rest : List Char} (hne : D ≠ [])
    (hdig : ∀ c ∈ D, isDigitC c = true)
    (hrest : ∃ c z, rest = c :: z ∧ isDigitC c = false) :
    digitsTok (D ++ rest) = some D := by
  obtain ⟨c, z, rfl, hc1⟩ := hrest
  obtain ⟨htake, _⟩ := takeWhile_stop (p := isDigitC) hdig (Or.inr ⟨c, z, rfl, hc1⟩)
  rw [digitsTok, htake, if_neg (by simp [List.isEmpty_iff, hne])]

theorem matchScoreG_family {w S rest : List Char} (hw : WSp w) (hS : IntTok S)
    (hrest : ∃ c z, rest = c :: z ∧ isSpaceC c = true) :
    matchScoreAfterLabelG ([':'] ++ (w ++ (S ++ rest))) = some S := by
  obtain ⟨cr, zr, rfl, hcr⟩ := hrest
  have hcrd : isDigitC cr = false := by
    cases hdc : isDigitC cr with
    | false => rfl
    | true =>
      rw [isSpaceC_of_isDigitC hdc] at hcr
      exact absurd hcr (by decide)
  obtain ⟨d, S', hSd, hdd⟩ : ∃ d S', S = d :: S' ∧ isDigitC d = true := by
    obtain ⟨d, S', rfl⟩ := List.exists_cons_of_ne_nil hS.1
    exact ⟨d, S', rfl, hS.2 d (List.mem_cons_self d S')⟩
  have hstop1 : (S ++ (cr :: zr)).dropWhile isSpaceC = S ++ (cr :: zr) := by
    rw [hSd]
    show (d :: (S' ++ cr :: zr)).dropWhile isSpaceC = _
    rw [List.dropWhile_cons, if_neg (by simp [isSpaceC_of_isDigitC hdd])]
    rfl
  rw [matchScoreAfterLabelG,
      show afterColon ([':'] ++ (w ++ (S ++ (cr :: zr)))) = w ++ (S ++ (cr :: zr)) from rfl,
      List.dropWhile_append_of_pos hw, hstop1]
  exact digitsTok_int hS.1 hS.2 ⟨cr, zr, rfl, hcrd⟩

theorem matchReason_family {look : List Char → Bool} {w S n wR r rest w' : List Char}
    (hw : ∀ c ∈ w, plainC c = true) (hS : ∀ c ∈ S, plainC c = true)
    (hn : ∀ c ∈ n, plainC c = true) (hwR : WSp wR) (hr : CleanR r)
    (hskip : ∀ u₁ u₂, r = u₁ ++ u₂ → u₂ ≠ [] → look (u₂ ++ rest) = false)
    (hcap : lazyCapture look rest = some w') :
    matchReasonAfterLabel look (w ++ (S ++ (n ++ (reasonU ++ (wR ++ (r ++ rest)))))) =
      some (r ++ w') := by
  rw [matchReasonAfterLabel, findRE_skip_plain hw, findRE_skip_plain hS,
      findRE_skip_plain hn, findRE_self]
  show lazyCapture look ((wR ++ (r ++ rest)).dropWhile isSpaceC) = some (r ++ w')
  obtain ⟨hrne, hlead, _⟩ := hr
  obtain ⟨c0, r', rfl⟩ := List.exists_cons_of_ne_nil hrne
  have hc0 : isSpaceC c0 = false := by
    rw [noLeadWS] at hlead
    simpa using hlead
  rw [List.dropWhile_append_of_pos hwR,
      show ((c0 :: r') ++ rest).dropWhile isSpaceC = c0 :: (r' ++ rest) from by
        rw [show ((c0 :: r') ++ rest) = c0 :: (r' ++ rest) from rfl, List.dropWhile_cons,
            if_neg (by simp [hc0])]]
  show lazyCapture look ((c0 :: r') ++ rest) = some ((c0 :: r') ++ w')
  rw [lazyCapture_skip hskip, hcap]
  rfl

theorem searchLR_skip_plainH {T : List Char} {after : List Char → Option (List Char)}
    {w v : List Char} (hTne : T ≠ []) (ha : plainC (lcChar (T.headD 'x')) = false)
    (hw : ∀ c ∈ w, plainC c = true) :
    searchLR T after (w ++ v) = searchLR T after v := by
  obtain ⟨a, T', rfl⟩ := List.exists_cons_of_ne_nil hTne
  exact searchLR_skip_plain (by simpa using ha) hw

theorem searchLR_skip_blockR {T : List Char}
    {after : List Char → Option (List Char)} {lab w S n wR r rest : List Char}
    (hTne : T ≠ []) (ha : plainC (lcChar (T.headD 'x')) = false)
    (hlit1 : lab.tails.all (fun t => t.isEmpty || !pseudoPrefix T t) = true)
    (hlit2 : reasonU.tails.all (fun t => t.isEmpty || !pseudoPrefix T t) = true)
    (hw : ∀ c ∈ w, plainC c = true) (hS : ∀ c ∈ S, plainC c = true)
    (hn : ∀ c ∈ n, plainC c = true) (hwR : ∀ c ∈ wR, plainC c = true)
    (hno : hasCI T r = false)
    (hrest : rest = [] ∨ ∃ c z, rest = c :: z ∧ ∀ x ∈ T, ciEq x c = false) :
    searchLR T after (blockR lab w S n wR r rest) = searchLR T after rest := by
  rw [blockR, searchLR_skip_lit hlit1,
      searchLR_skip_plainH hTne ha (by decide : ∀ c ∈ ([':'] : List Char), plainC c = true),
      searchLR_skip_plainH hTne ha hw, searchLR_skip_plainH hTne ha hS,
      searchLR_skip_plainH hTne ha hn, searchLR_skip_lit hlit2,
      searchLR_skip_plainH hTne ha hwR, searchLR_skip_clean hno hrest]

theorem NLrun_head_ws {n : List Char} (h : NLrun n) (X : List Char) :
    ∃ c z, n ++ X = c :: z ∧ isSpaceC c = true := by
  obtain ⟨n', rfl⟩ := NLrun_cons h
  exact ⟨'\n', n' ++ X, rfl, by decide⟩

theorem NLrun_head_mismatch {n : List Char} (h : NLrun n) (X : List Char) {T : List Char}
    (hT : ∀ x ∈ T, ciEq x '\n' = false) :
    n ++ X = [] ∨ ∃ c z, n ++ X = c :: z ∧ ∀ x ∈ T, ciEq x c = false := by
  obtain ⟨n', rfl⟩ := NLrun_cons h
  exact Or.inr ⟨'\n', n' ++ X, rfl, hT⟩

theorem NLrun_head_mismatch_labs {n : List Char} (h : NLrun n) (X : List Char)
    {labs : List (List Char)} (hT : ∀ lab ∈ labs, ∀ x ∈ lab, ciEq x '\n' = false) :
    n ++ X = [] ∨ ∃ c z, n ++ X = c :: z ∧ ∀ lab ∈ labs, ∀ x ∈ lab, ciEq x c = false := by
  obtain ⟨n', rfl⟩ := NLrun_cons h
  exact Or.inr ⟨'\n', n' ++ X, rfl, hT⟩

theorem coerce_numTok {S : List Char} (h : NumTok S) :
    coerceScore (pyStrip S) = some (numTokVal S) := by
  obtain ⟨hne, hAll, hCount, hAny⟩ := NumTok_shape h
  have hnospace : ∀ c ∈ S, isSpaceC c = false := by
    intro c hc
    rcases hAll c hc with hd | rfl
    · exact isSpaceC_of_isDigitC hd
    · decide
  rw [pyStrip_eq_self hnospace, coerceScore, subNonNumeric_eq_self hAll,
      pyFloatDD_some hAll hAny hCount]

theorem prefixCI_blockR_self (lab w S n wR r rest : List Char) :
    prefixCI lab (blockR lab w S n wR r rest) = true := by
  rw [blockR]
  exact prefixCI_self lab _

theorem parse_evaluation_famText
    (w0 w1 S1 n1 w2 r1 n2 w3 S2 n3 w4 r2 n4 w5 S3 n5 w6 r3 wE : List Char)
    (h : famOkO w0 w1 S1 n1 w2 r1 n2 w3 S2 n3 w4 r2 n4 w5 S3 n5 w6 r3 wE) :
    parse_evaluation (famText w0 w1 S1 n1 w2 r1 n2 w3 S2 n3 w4 r2 n4 w5 S3 n5 w6 r3 wE) =
      ⟨some (numTokVal S1), some r1, some (numTokVal S2), some r2,
       some (numTokVal S3), some r3⟩ := by
  obtain ⟨h0, h1, hS1, hn1, h2, hr1, hn2, h3, hS2, hn3, h4, hr2, hn4,
          h5, hS3, hn5, h6, hr3, hE, hcs1, hch1, hch2⟩ := h
  have hf1 : scoreField authU
      (famText w0 w1 S1 n1 w2 r1 n2 w3 S2 n3 w4 r2 n4 w5 S3 n5 w6 r3 wE) =
      some (numTokVal S1) := by
    rw [scoreField, famText, searchLR_skip_plainH (by decide) (by decide) (WSp_plain h0),
        blockR, searchLR_self (by decide) (matchScore_family h1 hS1 (NLrun_head_ws hn1 _))]
    simp only [Option.some_bind]
    exact coerce_numTok hS1
  have hf2 : reasonField authU (lookTerm [sensU, harmU] true)
      (famText w0 w1 S1 n1 w2 r1 n2 w3 S2 n3 w4 r2 n4 w5 S3 n5 w6 r3 wE) =
      some r1 := by
    have hno12 : ∀ lab ∈ [sensU, harmU], hasCI lab r1 = false := by
      intro lab hmem
      simp only [List.mem_cons, List.not_mem_nil, or_false] at hmem
      rcases hmem with rfl | rfl
      · exact hcs1
      · exact hch1
    have hskip : ∀ u₁ u₂, r1 = u₁ ++ u₂ → u₂ ≠ [] →
        lookTerm [sensU, harmU] true
          (u₂ ++ (n2 ++ blockR sensU w3 S2 n3 w4 r2
            (n4 ++ blockR harmU w5 S3 n5 w6 r3 wE))) = false :=
      lookTerm_false_in_clean hr1.2.2 hno12 (NLrun_head_mismatch_labs hn2 _ (by decide))
    have hcap : lazyCapture (lookTerm [sensU, harmU] true)
        (n2 ++ blockR sensU w3 S2 n3 w4 r2 (n4 ++ blockR harmU w5 S3 n5 w6 r3 wE)) =
        some [] :=
      lazyCapture_of_look (lookTerm_true_after_nl (NLrun_beq hn2) (by simp) (by decide)
        (by decide) (prefixCI_blockR_self sensU w3 S2 n3 w4 r2 _))
    rw [reasonField, famText, searchLR_skip_plainH (by decide) (by decide) (WSp_plain h0),
        blockR, ← List.append_assoc,
        searchLR_self (by decide)
          (matchReason_family (WSp_plain h1) (NumTok_plain hS1) (NLrun_plain hn1)
            h2 hr1 hskip hcap)]
    simp only [Option.map_some', List.append_nil]
    rw [pyStrip_eq_self_edge hr1.2.1 hr1.2.2]
  have hf3 : scoreField sensU
      (famText w0 w1 S1 n1 w2 r1 n2 w3 S2 n3 w4 r2 n4 w5 S3 n5 w6 r3 wE) =
      some (numTokVal S2) := by
    rw [scoreField, famText, searchLR_skip_plainH (by decide) (by decide) (WSp_plain h0),
        searchLR_skip_blockR (by decide) (by decide) (by decide) (by decide)
          (WSp_plain h1) (NumTok_plain hS1) (NLrun_plain hn1) (WSp_plain h2) hcs1
          (NLrun_head_mismatch hn2 _ (by decide)),
        searchLR_skip_plainH (by decide) (by decide) (NLrun_plain hn2),
        blockR, searchLR_self (by decide) (matchScore_family h3 hS2 (NLrun_head_ws hn3 _))]
    simp only [Option.some_bind]
    exact coerce_numTok hS2
  have hf4 : reasonField sensU (lookTerm [harmU] true)
      (famText w0 w1 S1 n1 w2 r1 n2 w3 S2 n3 w4 r2 n4 w5 S3 n5 w6 r3 wE) =
      some r2 := by
    have hno4 : ∀ lab ∈ [harmU], hasCI lab r2 = false := by
      intro lab hmem
      simp only [List.mem_cons, List.not_mem_nil, or_false] at hmem
      rw [hmem]
      exact hch2
    have hskip : ∀ u₁ u₂, r2 = u₁ ++ u₂ → u₂ ≠ [] →
        lookTerm [harmU] true (u₂ ++ (n4 ++ blockR harmU w5 S3 n5 w6 r3 wE)) = false :=
      lookTerm_false_in_clean hr2.2.2 hno4 (NLrun_head_mismatch_labs hn4 _ (by decide))
    have hcap : lazyCapture (lookTerm [harmU] true)
        (n4 ++ blockR harmU w5 S3 n5 w6 r3 wE) = some [] :=
      lazyCapture_of_look (lookTerm_true_after_nl (NLrun_beq hn4) (by simp) (by decide)
        (by decide) (prefixCI_blockR_self harmU w5 S3 n5 w6 r3 _))
    rw [reasonField, famText, searchLR_skip_plainH (by decide) (by decide) (WSp_plain h0),
        searchLR_skip_blockR (by decide) (by decide) (by decide) (by decide)
          (WSp_plain h1) (NumTok_plain hS1) (NLrun_plain hn1) (WSp_plain h2)
          (hasCI_mono_ext hcs1) (NLrun_head_mismatch hn2 _ (by decide)),
        searchLR_skip_plainH (by decide) (by decide) (NLrun_plain hn2),
        blockR, ← List.append_assoc,
        searchLR_self (by decide)
          (matchReason_family (WSp_plain h3) (NumTok_plain hS2) (NLrun_plain hn3)
            h4 hr2 hskip hcap)]
    simp only [Option.map_some', List.append_nil]
    rw [pyStrip_eq_self_edge hr2.2.1 hr2.2.2]
  have hf5 : scoreField harmU
      (famText w0 w1 S1 n1 w2 r1 n2 w3 S2 n3 w4 r2 n4 w5 S3 n5 w6 r3 wE) =
      some (numTokVal S3) := by
    rw [scoreField, famText, searchLR_skip_plainH (by decide) (by decide) (WSp_plain h0),
        searchLR_skip_blockR (by decide) (by decide) (by decide) (by decide)
          (WSp_plain h1) (NumTok_plain hS1) (NLrun_plain hn1) (WSp_plain h2) hch1
          (NLrun_head_mismatch hn2 _ (by decide)),
        searchLR_skip_plainH (by decide) (by decide) (NLrun_plain hn2),
        searchLR_skip_blockR (by decide) (by decide) (by decide) (by decide)
          (WSp_plain h3) (NumTok_plain hS2) (NLrun_plain hn3) (WSp_plain h4) hch2
          (NLrun_head_mismatch hn4 _ (by decide)),
        searchLR_skip_plainH (by decide) (by decide) (NLrun_plain hn4),
        blockR, searchLR_self (by decide) (matchScore_family h5 hS3 (NLrun_head_ws hn5 _))]
    simp only [Option.some_bind]
    exact coerce_numTok hS3
  have hf6 : reasonField harmU lookEnd
      (famText w0 w1 S1 n1 w2 r1 n2 w3 S2 n3 w4 r2 n4 w5 S3 n5 w6 r3 wE) =
      some r3 := by
    obtain ⟨w', hw', hws⟩ := lazyCapture_ws_exists (show lookEnd [] = true from by decide) hE
    have hskip : ∀ u₁ u₂, r3 = u₁ ++ u₂ → u₂ ≠ [] → lookEnd (u₂ ++ wE) = false :=
      lookEnd_false_in_clean hr3.2.2
    rw [reasonField, famText, searchLR_skip_plainH (by decide) (by decide) (WSp_plain h0),
        searchLR_skip_blockR (by decide) (by decide) (by decide) (by decide)
          (WSp_plain h1) (NumTok_plain hS1) (NLrun_plain hn1) (WSp_plain h2)
          (hasCI_mono_ext hch1) (NLrun_head_mismatch hn2 _ (by decide)),
        searchLR_skip_plainH (by decide) (by decide) (NLrun_plain hn2),
        searchLR_skip_blockR (by decide) (by decide) (by decide) (by decide)
          (WSp_plain h3) (NumTok_plain hS2) (NLrun_plain hn3) (WSp_plain h4)
          (hasCI_mono_ext hch2) (NLrun_head_mismatch hn4 _ (by decide)),
        searchLR_skip_plainH (by decide) (by decide) (NLrun_plain hn4),
        blockR, ← List.append_assoc,
        searchLR_self (by decide)
          (matchReason_family (WSp_plain h5) (NumTok_plain hS3) (NLrun_plain hn5)
            h6 hr3 hskip hw')]
    simp only [Option.map_some']
    rw [pyStrip_append_ws hr3.2.1 hr3.2.2 hws]
  show Parsed.mk
      (scoreField authU (famText w0 w1 S1 n1 w2 r1 n2 w3 S2 n3 w4 r2 n4 w5 S3 n5 w6 r3 wE))
      (reasonField authU (lookTerm [sensU, harmU] true)
        (famText w0 w1 S1 n1 w2 r1 n2 w3 S2 n3 w4 r2 n4 w5 S3 n5 w6 r3 wE))
      (scoreField sensU (famText w0 w1 S1 n1 w2 r1 n2 w3 S2 n3 w4 r2 n4 w5 S3 n5 w6 r3 wE))
      (reasonField sensU (lookTerm [harmU] true)
        (famText w0 w1 S1 n1 w2 r1 n2 w3 S2 n3 w4 r2 n4 w5 S3 n5 w6 r3 wE))
      (scoreField harmU (famText w0 w1 S1 n1 w2 r1 n2 w3 S2 n3 w4 r2 n4 w5 S3 n5 w6 r3 wE))
      (reasonField harmU lookEnd
        (famText w0 w1 S1 n1 w2 r1 n2 w3 S2 n3 w4 r2 n4 w5 S3 n5 w6 r3 wE)) = _
  rw [hf1, hf2, hf3, hf4, hf5, hf6]

theorem pyStrip_int {S : List Char} (h : IntTok S) : pyStrip S = S :=
  pyStrip_eq_self (fun c hc => isSpaceC_of_isDigitC (h.2 c hc))

theorem lazyCapture_clean_tail {look : List Char → Bool} {wR r rest w' : List Char}
    (hwR : WSp wR) (hr : CleanR r)
    (hskip : ∀ u₁ u₂, r = u₁ ++ u₂ → u₂ ≠ [] → look (u₂ ++ rest) = false)
    (hcap : lazyCapture look rest = some w') :
    lazyCapture look ((wR ++ (r ++ rest)).dropWhile isSpaceC) = some (r ++ w') := by
  obtain ⟨hrne, hlead, _⟩ := hr
  obtain ⟨c0, r', rfl⟩ := List.exists_cons_of_ne_nil hrne
  have hc0 : isSpaceC c0 = false := by
    rw [noLeadWS] at hlead
    simpa using hlead
  rw [List.dropWhile_append_of_pos hwR,
      show ((c0 :: r') ++ rest).dropWhile isSpaceC = c0 :: (r' ++ rest) from by
        rw [show ((c0 :: r') ++ rest) = c0 :: (r' ++ rest) from rfl, List.dropWhile_cons,
            if_neg (by simp [hc0])]]
  show lazyCapture look ((c0 :: r') ++ rest) = some ((c0 :: r') ++ w')
  rw [lazyCapture_skip hskip, hcap]
  rfl

theorem reasonScanG_self {look : List Char → Bool} {z cap : List Char}
    (hcap : lazyCapture look (z.dropWhile isSpaceC) = some cap) :
    reasonScanG look (reasonU ++ z) = some cap := by
  show reasonScanG look ('R' :: (['e', 'a', 's', 'o', 'n', ':'] ++ z)) = some cap
  rw [reasonScanG, if_pos (by exact prefixCI_self reasonU z)]
  rw [show ('R' :: (['e', 'a', 's', 'o', 'n', ':'] ++ z)).drop 7 = z from
    List.drop_left reasonU z]
  rw [hcap]

theorem reasonScanG_family {look : List Char → Bool} {w S n wR r rest w' : List Char}
    (hw : ∀ c ∈ w, plainC c = true) (hS : ∀ c ∈ S, plainC c = true)
    (hn : ∀ c ∈ n, plainC c = true) (hwR : WSp wR) (hr : CleanR r)
    (hskip : ∀ u₁ u₂, r = u₁ ++ u₂ → u₂ ≠ [] → look (u₂ ++ rest) = false)
    (hcap : lazyCapture look rest = some w') :
    reasonScanG look ([':'] ++ (w ++ (S ++ (n ++ (reasonU ++ (wR ++ (r ++ rest))))))) =
      some (r ++ w') := by
  rw [reasonScanG_skip_plain (by decide : ∀ c ∈ ([':'] : List Char), plainC c = true),
      reasonScanG_skip_plain hw, reasonScanG_skip_plain hS, reasonScanG_skip_plain hn]
  exact reasonScanG_self (lazyCapture_clean_tail hwR hr hskip hcap)

theorem reasonToEndG_family {w S n wR r rest : List Char}
    (hw : ∀ c ∈ w, plainC c = true) (hS : ∀ c ∈ S, plainC c = true)
    (hn : ∀ c ∈ n, plainC c = true) (hwR : WSp wR) (hr : CleanR r) :
    reasonToEndG ([':'] ++ (w ++ (S ++ (n ++ (reasonU ++ (wR ++ (r ++ rest))))))) =
      some (r ++ rest) := by
  rw [reasonToEndG_skip_plain (by decide : ∀ c ∈ ([':'] : List Char), plainC c = true),
      reasonToEndG_skip_plain hw, reasonToEndG_skip_plain hS, reasonToEndG_skip_plain hn,
      reasonToEndG_self]
  obtain ⟨hrne, hlead, _⟩ := hr
  obtain ⟨c0, r', rfl⟩ := List.exists_cons_of_ne_nil hrne
  have hc0 : isSpaceC c0 = false := by
    rw [noLeadWS] at hlead
    simpa using hlead
  rw [List.dropWhile_append_of_pos hwR,
      show ((c0 :: r') ++ rest).dropWhile isSpaceC = c0 :: (r' ++ rest) from by
        rw [show ((c0 :: r') ++ rest) = c0 :: (r' ++ rest) from rfl, List.dropWhile_cons,
            if_neg (by simp [hc0])]]
  rfl

theorem parse_evaluation_gem_famText
    (w0 w1 S1 n1 w2 r1 n2 w3 S2 n3 w4 r2 n4 w5 S3 n5 w6 r3 wE : List Char)
    (h : famOkG w0 w1 S1 n1 w2 r1 n2 w3 S2 n3 w4 r2 n4 w5 S3 n5 w6 r3 wE) :
    parse_evaluation_gem (famText w0 w1 S1 n1 w2 r1 n2 w3 S2 n3 w4 r2 n4 w5 S3 n5 w6 r3 wE) =
      ⟨some S1, some r1, some S2, some r2, some S3, some r3⟩ := by
  obtain ⟨h0, h1, hS1, hn1, h2, hr1, hn2, h3, hS2, hn3, h4, hr2, hn4,
          h5, hS3, hn5, h6, hr3, hE, hcs1, hch1, hch2⟩ := h
  have hf1 : (searchLR authU matchScoreAfterLabelG
      (famText w0 w1 S1 n1 w2 r1 n2 w3 S2 n3 w4 r2 n4 w5 S3 n5 w6 r3 wE)).map pyStrip =
      some S1 := by
    rw [famText, searchLR_skip_plainH (by decide) (by decide) (WSp_plain h0),
        blockR, searchLR_self (by decide) (matchScoreG_family h1 hS1 (NLrun_head_ws hn1 _))]
    simp only [Option.map_some']
    rw [pyStrip_int hS1]
  have hf2 : (searchLR authU (reasonScanG (lookTerm [sensU] false))
      (famText w0 w1 S1 n1 w2 r1 n2 w3 S2 n3 w4 r2 n4 w5 S3 n5 w6 r3 wE)).map pyStrip =
      some r1 := by
    have hno1 : ∀ lab ∈ [sensU], hasCI lab r1 = false := by
      intro lab hmem
      simp only [List.mem_cons, List.not_mem_nil, or_false] at hmem
      rw [hmem]
      exact hcs1
    have hskip : ∀ u₁ u₂, r1 = u₁ ++ u₂ → u₂ ≠ [] →
        lookTerm [sensU] false
          (u₂ ++ (n2 ++ blockR sensU w3 S2 n3 w4 r2
            (n4 ++ blockR harmU w5 S3 n5 w6 r3 wE))) = false :=
      lookTerm_false_in_clean hr1.2.2 hno1 (NLrun_head_mismatch_labs hn2 _ (by decide))
    have hcap : lazyCapture (lookTerm [sensU] false)
        (n2 ++ blockR sensU w3 S2 n3 w4 r2 (n4 ++ blockR harmU w5 S3 n5 w6 r3 wE)) =
        some [] :=
      lazyCapture_of_look (lookTerm_true_after_nl (NLrun_beq hn2) (by simp) (by decide)
        (by decide) (prefixCI_blockR_self sensU w3 S2 n3 w4 r2 _))
    rw [famText, searchLR_skip_plainH (by decide) (by decide) (WSp_plain h0),
        blockR, searchLR_self (by decide)
          (reasonScanG_family (WSp_plain h1) (IntTok_plain hS1) (NLrun_plain hn1)
            h2 hr1 hskip hcap)]
    simp only [Option.map_some', List.append_nil]
    rw [pyStrip_eq_self_edge hr1.2.1 hr1.2.2]
  have hf3 : (searchLR sensU matchScoreAfterLabelG
      (famText w0 w1 S1 n1 w2 r1 n2 w3 S2 n3 w4 r2 n4 w5 S3 n5 w6 r3 wE)).map pyStrip =
      some S2 := by
    rw [famText, searchLR_skip_plainH (by decide) (by decide) (WSp_plain h0),
        searchLR_skip_blockR (by decide) (by decide) (by decide) (by decide)
          (WSp_plain h1) (IntTok_plain hS1) (NLrun_plain hn1) (WSp_plain h2) hcs1
          (NLrun_head_mismatch hn2 _ (by decide)),
        searchLR_skip_plainH (by decide) (by decide) (NLrun_plain hn2),
        blockR, searchLR_self (by decide) (matchScoreG_family h3 hS2 (NLrun_head_ws hn3 _))]
    simp only [Option.map_some']
    rw [pyStrip_int hS2]
  have hf4 : (searchLR sensU (reasonScanG (lookTerm [harmU] false))
      (famText w0 w1 S1 n1 w2 r1 n2 w3 S2 n3 w4 r2 n4 w5 S3 n5 w6 r3 wE)).map pyStrip =
      some r2 := by
    have hno4 : ∀ lab ∈ [harmU], hasCI lab r2 = false := by
      intro lab hmem
      simp only [List.mem_cons, List.not_mem_nil, or_false] at hmem
      rw [hmem]
      exact hch2
    have hskip : ∀ u₁ u₂, r2 = u₁ ++ u₂ → u₂ ≠ [] →
        lookTerm [harmU] false (u₂ ++ (n4 ++ blockR harmU w5 S3 n5 w6 r3 wE)) = false :=
      lookTerm_false_in_clean hr2.2.2 hno4 (NLrun_head_mismatch_labs hn4 _ (by decide))
    have hcap : lazyCapture (lookTerm [harmU] false)
        (n4 ++ blockR harmU w5 S3 n5 w6 r3 wE) = some [] :=
      lazyCapture_of_look (lookTerm_true_after_nl (NLrun_beq hn4) (by simp) (by decide)
        (by decide) (prefixCI_blockR_self harmU w5 S3 n5 w6 r3 _))
    rw [famText, searchLR_skip_plainH (by decide) (by decide) (WSp_plain h0),
        searchLR_skip_blockR (by decide) (by decide) (by decide) (by decide)
          (WSp_plain h1) (IntTok_plain hS1) (NLrun_plain hn1) (WSp_plain h2) hcs1
          (NLrun_head_mismatch hn2 _ (by decide)),
        searchLR_skip_plainH (by decide) (by decide) (NLrun_plain hn2),
        blockR, searchLR_self (by decide)
          (reasonScanG_family (WSp_plain h3) (IntTok_plain hS2) (NLrun_plain hn3)
            h4 hr2 hskip hcap)]
    simp only [Option.map_some', List.append_nil]
    rw [pyStrip_eq_self_edge hr2.2.1 hr2.2.2]
  have hf5 : (searchLR harmU matchScoreAfterLabelG
      (famText w0 w1 S1 n1 w2 r1 n2 w3 S2 n3 w4 r2 n4 w5 S3 n5 w6 r3 wE)).map pyStrip =
      some S3 := by
    rw [famText, searchLR_skip_plainH (by decide) (by decide) (WSp_plain h0),
        searchLR_skip_blockR (by decide) (by decide) (by decide) (by decide)
          (WSp_plain h1) (IntTok_plain hS1) (NLrun_plain hn1) (WSp_plain h2) hch1
          (NLrun_head_mismatch hn2 _ (by decide)),
        searchLR_skip_plainH (by decide) (by decide) (NLrun_plain hn2),
        searchLR_skip_blockR (by decide) (by decide) (by decide) (by decide)
          (WSp_plain h3) (IntTok_plain hS2) (NLrun_plain hn3) (WSp_plain h4) hch2
          (NLrun_head_mismatch hn4 _ (by decide)),
        searchLR_skip_plainH (by decide) (by decide) (NLrun_plain hn4),
        blockR, searchLR_self (by decide) (matchScoreG_family h5 hS3 (NLrun_head_ws hn5 _))]
    simp only [Option.map_some']
    rw [pyStrip_int hS3]
  have hf6 : (searchLR harmU reasonToEndG
      (famText w0 w1 S1 n1 w2 r1 n2 w3 S2 n3 w4 r2 n4 w5 S3 n5 w6 r3 wE)).map pyStrip =
      some r3 := by
    rw [famText, searchLR_skip_plainH (by decide) (by decide) (WSp_plain h0),
        searchLR_skip_blockR (by decide) (by decide) (by decide) (by decide)
          (WSp_plain h1) (IntTok_plain hS1) (NLrun_plain hn1) (WSp_plain h2) hch1
          (NLrun_head_mismatch hn2 _ (by decide)),
        searchLR_skip_plainH (by decide) (by decide) (NLrun_plain hn2),
        searchLR_skip_blockR (by decide) (by decide) (by decide) (by decide)
          (WSp_plain h3) (IntTok_plain hS2) (NLrun_plain hn3) (WSp_plain h4) hch2
          (NLrun_head_mismatch hn4 _ (by decide)),
        searchLR_skip_plainH (by decide) (by decide) (NLrun_plain hn4),
        blockR, searchLR_self (by decide)
          (reasonToEndG_family (WSp_plain h5) (IntTok_plain hS3) (NLrun_plain hn5) h6 hr3)]
    simp only [Option.map_some']
    rw [pyStrip_append_ws hr3.2.1 hr3.2.2 hE]
  show ParsedG.mk
      ((searchLR authU matchScoreAfterLabelG
        (famText w0 w1 S1 n1 w2 r1 n2 w3 S2 n3 w4 r2 n4 w5 S3 n5 w6 r3 wE)).map pyStrip)
      ((searchLR authU (reasonScanG (lookTerm [sensU] false))
        (famText w0 w1 S1 n1 w2 r1 n2 w3 S2 n3 w4 r2 n4 w5 S3 n5 w6 r3 wE)).map pyStrip)
      ((searchLR sensU matchScoreAfterLabelG
        (famText w0 w1 S1 n1 w2 r1 n2 w3 S2 n3 w4 r2 n4 w5 S3 n5 w6 r3 wE)).map pyStrip)
      ((searchLR sensU (reasonScanG (lookTerm [harmU] false))
        (famText w0 w1 S1 n1 w2 r1 n2 w3 S2 n3 w4 r2 n4 w5 S3 n5 w6 r3 wE)).map pyStrip)
      ((searchLR harmU matchScoreAfterLabelG
        (famText w0 w1 S1 n1 w2 r1 n2 w3 S2 n3 w4 r2 n4 w5 S3 n5 w6 r3 wE)).map pyStrip)
      ((searchLR harmU reasonToEndG
        (famText w0 w1 S1 n1 w2 r1 n2 w3 S2 n3 w4 r2 n4 w5 S3 n5 w6 r3 wE)).map pyStrip) = _
  rw [hf1, hf2, hf3, hf4, hf5, hf6]

/-- C2: for every response containing the three criterion labels in the
documented order, each followed by a numeric rating and a `Reason:` line —
built from arbitrary whitespace pads, arbitrary newline-run separators,
arbitrary rating tokens and arbitrary label-free reason strings —
`parse_evaluation` recovers all three scores and all three reason strings
exactly; likewise the gemini-flash `parse_evaluation` (whose score capture is
integer-only and keeps the raw capture strings). -/
theorem c2_label_order_invariance :
    (∀ w0 w1 S1 n1 w2 r1 n2 w3 S2 n3 w4 r2 n4 w5 S3 n5 w6 r3 wE : List Char,
      famOkO w0 w1 S1 n1 w2 r1 n2 w3 S2 n3 w4 r2 n4 w5 S3 n5 w6 r3 wE →
      parse_evaluation (famText w0 w1 S1 n1 w2 r1 n2 w3 S2 n3 w4 r2 n4 w5 S3 n5 w6 r3 wE) =
        ⟨some (numTokVal S1), some r1, some (numTokVal S2), some r2,
         some (numTokVal S3), some r3⟩) ∧
    (∀ w0 w1 S1 n1 w2 r1 n2 w3 S2 n3 w4 r2 n4 w5 S3 n5 w6 r3 wE : List Char,
      famOkG w0 w1 S1 n1 w2 r1 n2 w3 S2 n3 w4 r2 n4 w5 S3 n5 w6 r3 wE →
      parse_evaluation_gem (famText w0 w1 S1 n1 w2 r1 n2 w3 S2 n3 w4 r2 n4 w5 S3 n5 w6 r3 wE) =
        ⟨some S1, some r1, some S2, some r2, some S3, some r3⟩) :=
  ⟨parse_evaluation_famText, parse_evaluation_gem_famText⟩

/-- Witness for C2 at Scenario A. -/
theorem c2_witness :
    parse_evaluation "AUTHENTICITY: 5\nReason: Spot on.\nSENSITIVITY: 2\nReason: Ignores dietary rule.\nHARMONY: 3\nReason: Mixed result.".data =
      ⟨some 5, some "Spot on.".data, some 2, some "Ignores dietary rule.".data,
       some 3, some "Mixed result.".data⟩ ∧
    parse_evaluation_gem "AUTHENTICITY: 5\nReason: Spot on.\nSENSITIVITY: 2\nReason: Ignores dietary rule.\nHARMONY: 3\nReason: Mixed result.".data =
      ⟨some "5".data, some "Spot on.".data, some "2".data,
       some "Ignores dietary rule.".data, some "3".data, some "Mixed result.".data⟩ := by
  constructor
  · have h := c2_label_order_invariance.1 [] [' '] ['5'] ['\n'] [' '] "Spot on.".data
      ['\n'] [' '] ['2'] ['\n'] [' '] "Ignores dietary rule.".data
      ['\n'] [' '] ['3'] ['\n'] [' '] "Mixed result.".data []
      ⟨by decide, by decide, NumTok.int ['5'] (by decide) (by decide), by decide, by decide,
       by decide, by decide, by decide, NumTok.int ['2'] (by decide) (by decide), by decide,
       by decide, by decide, by decide, by decide, NumTok.int ['3'] (by decide) (by decide),
       by decide, by decide, by decide, by decide, by decide, by decide, by decide⟩
    rw [show famText [] [' '] ['5'] ['\n'] [' '] "Spot on.".data
      ['\n'] [' '] ['2'] ['\n'] [' '] "Ignores dietary rule.".data
      ['\n'] [' '] ['3'] ['\n'] [' '] "Mixed result.".data [] =
      "AUTHENTICITY: 5\nReason: Spot on.\nSENSITIVITY: 2\nReason: Ignores dietary rule.\nHARMONY: 3\nReason: Mixed result.".data from by decide,
      show numTokVal ['5'] = 5 from by decide, show numTokVal ['2'] = 2 from by decide,
      show numTokVal ['3'] = 3 from by decide] at h
    exact h
  · have h := c2_label_order_invariance.2 [] [' '] ['5'] ['\n'] [' '] "Spot on.".data
      ['\n'] [' '] ['2'] ['\n'] [' '] "Ignores dietary rule.".data
      ['\n'] [' '] ['3'] ['\n'] [' '] "Mixed result.".data []
      ⟨by decide, by decide, ⟨by decide, by decide⟩, by decide, by decide,
       by decide, by decide, by decide, ⟨by decide, by decide⟩, by decide,
       by decide, by decide, by decide, by decide, ⟨by decide, by decide⟩,
       by decide, by decide, by decide, by decide, by decide, by decide, by decide⟩
    rw [show famText [] [' '] ['5'] ['\n'] [' '] "Spot on.".data
      ['\n'] [' '] ['2'] ['\n'] [' '] "Ignores dietary rule.".data
      ['\n'] [' '] ['3'] ['\n'] [' '] "Mixed result.".data [] =
      "AUTHENTICITY: 5\nReason: Spot on.\nSENSITIVITY: 2\nReason: Ignores dietary rule.\nHARMONY: 3\nReason: Mixed result.".data from by decide] at h
    exact h

theorem ws_head_mismatch_labs {wE : List Char} (hE : WSp wE) {labs : List (List Char)}
    (hlabs : ∀ lab ∈ labs, ∀ x ∈ lab, plainC (lcChar x) = false) :
    wE = [] ∨ ∃ c z, wE = c :: z ∧ ∀ lab ∈ labs, ∀ x ∈ lab, ciEq x c = false := by
  cases wE with
  | nil => exact Or.inl rfl
  | cons c z =>
    refine Or.inr ⟨c, z, rfl, fun lab hl x hx => ciEq_plain_false ?_ (hlabs lab hl x hx)⟩
    exact (WSp_plain hE) c (List.mem_cons_self c z)

theorem ws_head_mismatch {wE : List Char} (hE : WSp wE) {T : List Char}
    (hT : ∀ x ∈ T, plainC (lcChar x) = false) :
    wE = [] ∨ ∃ c z, wE = c :: z ∧ ∀ x ∈ T, ciEq x c = false := by
  cases wE with
  | nil => exact Or.inl rfl
  | cons c z =>
    refine Or.inr ⟨c, z, rfl, fun x hx => ciEq_plain_false ?_ (hT x hx)⟩
    exact (WSp_plain hE) c (List.mem_cons_self c z)

theorem hasCI_oneCrit_of_r {lab lab' w0 w S n wR r wE : List Char}
    (h : hasCI lab r = true) :
    hasCI lab (oneCritText lab' w0 w S n wR r wE) = true := by
  rw [oneCritText, blockR]
  apply hasCI_append_right
  apply hasCI_append_right
  apply hasCI_append_right
  apply hasCI_append_right
  apply hasCI_append_right
  apply hasCI_append_right
  apply hasCI_append_right
  apply hasCI_append_right
  exact hasCI_append_left _ h

theorem parse_evaluation_no_labels {text : List Char}
    (hA : hasCI authU text = false) (hS : hasCI sensU text = false)
    (hH : hasCI harmU text = false) :
    parse_evaluation text = ⟨none, none, none, none, none, none⟩ := by
  have f1 : scoreField authU text = none := by
    rw [scoreField, searchLR_none_of_hasCI_false hA]
    rfl
  have f2 : reasonField authU (lookTerm [sensU, harmU] true) text = none := by
    rw [reasonField, searchLR_none_of_hasCI_false (hasCI_mono_ext hA)]
    rfl
  have f3 : scoreField sensU text = none := by
    rw [scoreField, searchLR_none_of_hasCI_false hS]
    rfl
  have f4 : reasonField sensU (lookTerm [harmU] true) text = none := by
    rw [reasonField, searchLR_none_of_hasCI_false (hasCI_mono_ext hS)]
    rfl
  have f5 : scoreField harmU text = none := by
    rw [scoreField, searchLR_none_of_hasCI_false hH]
    rfl
  have f6 : reasonField harmU lookEnd text = none := by
    rw [reasonField, searchLR_none_of_hasCI_false (hasCI_mono_ext hH)]
    rfl
  show Parsed.mk (scoreField authU text) (reasonField authU (lookTerm [sensU, harmU] true) text)
      (scoreField sensU text) (reasonField sensU (lookTerm [harmU] true) text)
      (scoreField harmU text) (reasonField harmU lookEnd text) = _
  rw [f1, f2, f3, f4, f5, f6]

theorem parse_evaluation_gem_no_labels {text : List Char}
    (hA : hasCI authU text = false) (hS : hasCI sensU text = false)
    (hH : hasCI harmU text = false) :
    parse_evaluation_gem text = ⟨none, none, none, none, none, none⟩ := by
  show ParsedG.mk ((searchLR authU matchScoreAfterLabelG text).map pyStrip)
      ((searchLR authU (reasonScanG (lookTerm [sensU] false)) text).map pyStrip)
      ((searchLR sensU matchScoreAfterLabelG text).map pyStrip)
      ((searchLR sensU (reasonScanG (lookTerm [harmU] false)) text).map pyStrip)
      ((searchLR harmU matchScoreAfterLabelG text).map pyStrip)
      ((searchLR harmU reasonToEndG text).map pyStrip) = _
  rw [searchLR_none_of_hasCI_false hA, searchLR_none_of_hasCI_false hA,
      searchLR_none_of_hasCI_false hS, searchLR_none_of_hasCI_false hS,
      searchLR_none_of_hasCI_false hH, searchLR_none_of_hasCI_false hH]
  rfl

theorem hasCI_r_of_oneCrit_false {lab lab' w0 w S n wR r wE : List Char}
    (h : hasCI lab (oneCritText lab' w0 w S n wR r wE) = false) : hasCI lab r = false := by
  cases hx : hasCI lab r with
  | false => rfl
  | true =>
    have ht : hasCI lab (oneCritText lab' w0 w S n wR r wE) = true := hasCI_oneCrit_of_r hx
    rw [h] at ht
    exact absurd ht (by decide)

theorem parse_evaluation_oneCrit_auth (w0 w S n wR r wE : List Char)
    (h0 : WSp w0) (hw : WSp w) (hS : NumTok S) (hn : NLrun n) (hwR : WSp wR)
    (hr : CleanR r) (hE : WSp wE)
    (hSens : hasCI sensU (oneCritText authU w0 w S n wR r wE) = false)
    (hHarm : hasCI harmU (oneCritText authU w0 w S n wR r wE) = false) :
    parse_evaluation (oneCritText authU w0 w S n wR r wE) =
      ⟨some (numTokVal S), some r, none, none, none, none⟩ := by
  have hnoS : hasCI sensU r = false := hasCI_r_of_oneCrit_false hSens
  have hnoH : hasCI harmU r = false := hasCI_r_of_oneCrit_false hHarm
  have hf1 : scoreField authU (oneCritText authU w0 w S n wR r wE) =
      some (numTokVal S) := by
    rw [scoreField, oneCritText,
        searchLR_skip_plainH (by decide) (by decide) (WSp_plain h0),
        blockR, searchLR_self (by decide) (matchScore_family hw hS (NLrun_head_ws hn _))]
    simp only [Option.some_bind]
    exact coerce_numTok hS
  have hf2 : reasonField authU (lookTerm [sensU, harmU] true)
      (oneCritText authU w0 w S n wR r wE) = some r := by
    have hno12 : ∀ lab ∈ [sensU, harmU], hasCI lab r = false := by
      intro lab hmem
      simp only [List.mem_cons, List.not_mem_nil, or_false] at hmem
      rcases hmem with rfl | rfl
      · exact hnoS
      · exact hnoH
    obtain ⟨w', hw', hws⟩ :=
      lazyCapture_ws_exists (show lookTerm [sensU, harmU] true [] = true from by decide) hE
    have hskip : ∀ u₁ u₂, r = u₁ ++ u₂ → u₂ ≠ [] →
        lookTerm [sensU, harmU] true (u₂ ++ wE) = false :=
      lookTerm_false_in_clean hr.2.2 hno12 (ws_head_mismatch_labs hE (by decide))
    rw [reasonField, oneCritText,
        searchLR_skip_plainH (by decide) (by decide) (WSp_plain h0),
        blockR, ← List.append_assoc,
        searchLR_self (by decide)
          (matchReason_family (WSp_plain hw) (NumTok_plain hS) (NLrun_plain hn)
            hwR hr hskip hw')]
    simp only [Option.map_some']
    rw [pyStrip_append_ws hr.2.1 hr.2.2 hws]
  have hf3 : scoreField sensU (oneCritText authU w0 w S n wR r wE) = none := by
    rw [scoreField, searchLR_none_of_hasCI_false hSens]
    rfl
  have hf4 : reasonField sensU (lookTerm [harmU] true)
      (oneCritText authU w0 w S n wR r wE) = none := by
    rw [reasonField, searchLR_none_of_hasCI_false (hasCI_mono_ext hSens)]
    rfl
  have hf5 : scoreField harmU (oneCritText authU w0 w S n wR r wE) = none := by
    rw [scoreField, searchLR_none_of_hasCI_false hHarm]
    rfl
  have hf6 : reasonField harmU lookEnd (oneCritText authU w0 w S n wR r wE) = none := by
    rw [reasonField, searchLR_none_of_hasCI_false (hasCI_mono_ext hHarm)]
    rfl
  show Parsed.mk (scoreField authU (oneCritText authU w0 w S n wR r wE))
      (reasonField authU (lookTerm [sensU, harmU] true) (oneCritText authU w0 w S n wR r wE))
      (scoreField sensU (oneCritText authU w0 w S n wR r wE))
      (reasonField sensU (lookTerm [harmU] true) (oneCritText authU w0 w S n wR r wE))
      (scoreField harmU (oneCritText authU w0 w S n wR r wE))
      (reasonField harmU lookEnd (oneCritText authU w0 w S n wR r wE)) = _
  rw [hf1, hf2, hf3, hf4, hf5, hf6]

theorem parse_evaluation_oneCrit_sens (w0 w S n wR r wE : List Char)
    (h0 : WSp w0) (hw : WSp w) (hS : NumTok S) (hn : NLrun n) (hwR : WSp wR)
    (hr : CleanR r) (hE : WSp wE)
    (hAuth : hasCI authU (oneCritText sensU w0 w S n wR r wE) = false)
    (hHarm : hasCI harmU (oneCritText sensU w0 w S n wR r wE) = false) :
    parse_evaluation (oneCritText sensU w0 w S n wR r wE) =
      ⟨none, none, some (numTokVal S), some r, none, none⟩ := by
  have hnoH : hasCI harmU r = false := hasCI_r_of_oneCrit_false hHarm
  have hf1 : scoreField authU (oneCritText sensU w0 w S n wR r wE) = none := by
    rw [scoreField, searchLR_none_of_hasCI_false hAuth]
    rfl
  have hf2 : reasonField authU (lookTerm [sensU, harmU] true)
      (oneCritText sensU w0 w S n wR r wE) = none := by
    rw [reasonField, searchLR_none_of_hasCI_false (hasCI_mono_ext hAuth)]
    rfl
  have hf3 : scoreField sensU (oneCritText sensU w0 w S n wR r wE) =
      some (numTokVal S) := by
    rw [scoreField, oneCritText,
        searchLR_skip_plainH (by decide) (by decide) (WSp_plain h0),
        blockR, searchLR_self (by decide) (matchScore_family hw hS (NLrun_head_ws hn _))]
    simp only [Option.some_bind]
    exact coerce_numTok hS
  have hf4 : reasonField sensU (lookTerm [harmU] true)
      (oneCritText sensU w0 w S n wR r wE) = some r := by
    have hno4 : ∀ lab ∈ [harmU], hasCI lab r = false := by
      intro lab hmem
      simp only [List.mem_cons, List.not_mem_nil, or_false] at hmem
      rw [hmem]
      exact hnoH
    obtain ⟨w', hw', hws⟩ :=
      lazyCapture_ws_exists (show lookTerm [harmU] true [] = true from by decide) hE
    have hskip : ∀ u₁ u₂, r = u₁ ++ u₂ → u₂ ≠ [] →
        lookTerm [harmU] true (u₂ ++ wE) = false :=
      lookTerm_false_in_clean hr.2.2 hno4 (ws_head_mismatch_labs hE (by decide))
    rw [reasonField, oneCritText,
        searchLR_skip_plainH (by decide) (by decide) (WSp_plain h0),
        blockR, ← List.append_assoc,
        searchLR_self (by decide)
          (matchReason_family (WSp_plain hw) (NumTok_plain hS) (NLrun_plain hn)
            hwR hr hskip hw')]
    simp only [Option.map_some']
    rw [pyStrip_append_ws hr.2.1 hr.2.2 hws]
  have hf5 : scoreField harmU (oneCritText sensU w0 w S n wR r wE) = none := by
    rw [scoreField, searchLR_none_of_hasCI_false hHarm]
    rfl
  have hf6 : reasonField harmU lookEnd (oneCritText sensU w0 w S n wR r wE) = none := by
    rw [reasonField, searchLR_none_of_hasCI_false (hasCI_mono_ext hHarm)]
    rfl
  show Parsed.mk (scoreField authU (oneCritText sensU w0 w S n wR r wE))
      (reasonField authU (lookTerm [sensU, harmU] true) (oneCritText sensU w0 w S n wR r wE))
      (scoreField sensU (oneCritText sensU w0 w S n wR r wE))
      (reasonField sensU (lookTerm [harmU] true) (oneCritText sensU w0 w S n wR r wE))
      (scoreField harmU (oneCritText sensU w0 w S n wR r wE))
      (reasonField harmU lookEnd (oneCritText sensU w0 w S n wR r wE)) = _
  rw [hf1, hf2, hf3, hf4, hf5, hf6]

theorem parse_evaluation_oneCrit_harm (w0 w S n wR r wE : List Char)
    (h0 : WSp w0) (hw : WSp w) (hS : NumTok S) (hn : NLrun n) (hwR : WSp wR)
    (hr : CleanR r) (hE : WSp wE)
    (hAuth : hasCI authU (oneCritText harmU w0 w S n wR r wE) = false)
    (hSens : hasCI sensU (oneCritText harmU w0 w S n wR r wE) = false) :
    parse_evaluation (oneCritText harmU w0 w S n wR r wE) =
      ⟨none, none, none, none, some (numTokVal S), some r⟩ := by
  have hf1 : scoreField authU (oneCritText harmU w0 w S n wR r wE) = none := by
    rw [scoreField, searchLR_none_of_hasCI_false hAuth]
    rfl
  have hf2 : reasonField authU (lookTerm [sensU, harmU] true)
      (oneCritText harmU w0 w S n wR r wE) = none := by
    rw [reasonField, searchLR_none_of_hasCI_false (hasCI_mono_ext hAuth)]
    rfl
  have hf3 : scoreField sensU (oneCritText harmU w0 w S n wR r wE) = none := by
    rw [scoreField, searchLR_none_of_hasCI_false hSens]
    rfl
  have hf4 : reasonField sensU (lookTerm [harmU] true)
      (oneCritText harmU w0 w S n wR r wE) = none := by
    rw [reasonField, searchLR_none_of_hasCI_false (hasCI_mono_ext hSens)]
    rfl
  have hf5 : scoreField harmU (oneCritText harmU w0 w S n wR r wE) =
      some (numTokVal S) := by
    rw [scoreField, oneCritText,
        searchLR_skip_plainH (by decide) (by decide) (WSp_plain h0),
        blockR, searchLR_self (by decide) (matchScore_family hw hS (NLrun_head_ws hn _))]
    simp only [Option.some_bind]
    exact coerce_numTok hS
  have hf6 : reasonField harmU lookEnd (oneCritText harmU w0 w S n wR r wE) =
      some r := by
    obtain ⟨w', hw', hws⟩ := lazyCapture_ws_exists (show lookEnd [] = true from by decide) hE
    have hskip : ∀ u₁ u₂, r = u₁ ++ u₂ → u₂ ≠ [] → lookEnd (u₂ ++ wE) = false :=
      lookEnd_false_in_clean hr.2.2
    rw [reasonField, oneCritText,
        searchLR_skip_plainH (by decide) (by decide) (WSp_plain h0),
        blockR, ← List.append_assoc,
        searchLR_self (by decide)
          (matchReason_family (WSp_plain hw) (NumTok_plain hS) (NLrun_plain hn)
            hwR hr hskip hw')]
    simp only [Option.map_some']
    rw [pyStrip_append_ws hr.2.1 hr.2.2 hws]
  show Parsed.mk (scoreField authU (oneCritText harmU w0 w S n wR r wE))
      (reasonField authU (lookTerm [sensU, harmU] true) (oneCritText harmU w0 w S n wR r wE))
      (scoreField sensU (oneCritText harmU w0 w S n wR r wE))
      (reasonField sensU (lookTerm [harmU] true) (oneCritText harmU w0 w S n wR r wE))
      (scoreField harmU (oneCritText harmU w0 w S n wR r wE))
      (reasonField harmU lookEnd (oneCritText harmU w0 w S n wR r wE)) = _
  rw [hf1, hf2, hf3, hf4, hf5, hf6]

theorem parse_evaluation_gem_oneCrit_harm (w0 w S n wR r wE : List Char)
    (h0 : WSp w0) (hw : WSp w) (hS : IntTok S) (hn : NLrun n) (hwR : WSp wR)
    (hr : CleanR r) (hE : WSp wE)
    (hAuth : hasCI authU (oneCritText harmU w0 w S n wR r wE) = false)
    (hSens : hasCI sensU (oneCritText harmU w0 w S n wR r wE) = false) :
    parse_evaluation_gem (oneCritText harmU w0 w S n wR r wE) =
      ⟨none, none, none, none, some S, some r⟩ := by
  have hf5 : (searchLR harmU matchScoreAfterLabelG
      (oneCritText harmU w0 w S n wR r wE)).map pyStrip = some S := by
    rw [oneCritText, searchLR_skip_plainH (by decide) (by decide) (WSp_plain h0),
        blockR, searchLR_self (by decide) (matchScoreG_family hw hS (NLrun_head_ws hn _))]
    simp only [Option.map_some']
    rw [pyStrip_int hS]
  have hf6 : (searchLR harmU reasonToEndG
      (oneCritText harmU w0 w S n wR r wE)).map pyStrip = some r := by
    rw [oneCritText, searchLR_skip_plainH (by decide) (by decide) (WSp_plain h0),
        blockR, searchLR_self (by decide)
          (reasonToEndG_family (WSp_plain hw) (IntTok_plain hS) (NLrun_plain hn) hwR hr)]
    simp only [Option.map_some']
    rw [pyStrip_append_ws hr.2.1 hr.2.2 hE]
  show ParsedG.mk ((searchLR authU matchScoreAfterLabelG (oneCritText harmU w0 w S n wR r wE)).map pyStrip)
      ((searchLR authU (reasonScanG (lookTerm [sensU] false)) (oneCritText harmU w0 w S n wR r wE)).map pyStrip)
      ((searchLR sensU matchScoreAfterLabelG (oneCritText harmU w0 w S n wR r wE)).map pyStrip)
      ((searchLR sensU (reasonScanG (lookTerm [harmU] false)) (oneCritText harmU w0 w S n wR r wE)).map pyStrip)
      ((searchLR harmU matchScoreAfterLabelG (oneCritText harmU w0 w S n wR r wE)).map pyStrip)
      ((searchLR harmU reasonToEndG (oneCritText harmU w0 w S n wR r wE)).map pyStrip) = _
  rw [searchLR_none_of_hasCI_false hAuth, searchLR_none_of_hasCI_false hAuth,
      searchLR_none_of_hasCI_false hSens, searchLR_none_of_hasCI_false hSens, hf5, hf6]
  rfl

/-- C6: graceful degradation, as the code actually behaves.  (i) For text
containing none of the three labels, both parsers return all six fields null.
(ii) For a well-formed response containing exactly one labeled criterion with
its rating and reason, the ollama/4o-mini `parse_evaluation` returns exactly
that criterion's two fields non-null, for each of the three criteria; the
gemini `parse_evaluation` does so only when the lone criterion is HARMONY.
(iii) When the lone criterion is AUTHENTICITY or SENSITIVITY, the gemini
parser still extracts the score but returns a null reason, because its reason
patterns require the next criterion's label as terminator: the claim's
"only that criterion's two fields are non-null" fails for this variant. -/
theorem c6_graceful_degradation :
    (∀ text : List Char, hasCI authU text = false → hasCI sensU text = false →
        hasCI harmU text = false →
        parse_evaluation text = ⟨none, none, none, none, none, none⟩ ∧
        parse_evaluation_gem text = ⟨none, none, none, none, none, none⟩) ∧
    (∀ w0 w S n wR r wE, WSp w0 → WSp w → NumTok S → NLrun n → WSp wR →
        CleanR r → WSp wE →
        hasCI sensU (oneCritText authU w0 w S n wR r wE) = false →
        hasCI harmU (oneCritText authU w0 w S n wR r wE) = false →
        parse_evaluation (oneCritText authU w0 w S n wR r wE) =
          ⟨some (numTokVal S), some r, none, none, none, none⟩) ∧
    (∀ w0 w S n wR r wE, WSp w0 → WSp w → NumTok S → NLrun n → WSp wR →
        CleanR r → WSp wE →
        hasCI authU (oneCritText sensU w0 w S n wR r wE) = false →
        hasCI harmU (oneCritText sensU w0 w S n wR r wE) = false →
        parse_evaluation (oneCritText sensU w0 w S n wR r wE) =
          ⟨none, none, some (numTokVal S), some r, none, none⟩) ∧
    (∀ w0 w S n wR r wE, WSp w0 → WSp w → NumTok S → NLrun n → WSp wR →
        CleanR r → WSp wE →
        hasCI authU (oneCritText harmU w0 w S n wR r wE) = false →
        hasCI sensU (oneCritText harmU w0 w S n wR r wE) = false →
        parse_evaluation (oneCritText harmU w0 w S n wR r wE) =
          ⟨none, none, none, none, some (numTokVal S), some r⟩) ∧
    (∀ w0 w S n wR r wE, WSp w0 → WSp w → IntTok S → NLrun n → WSp wR →
        CleanR r → WSp wE →
        hasCI authU (oneCritText harmU w0 w S n wR r wE) = false →
        hasCI sensU (oneCritText harmU w0 w S n wR r wE) = false →
        parse_evaluation_gem (oneCritText harmU w0 w S n wR r wE) =
          ⟨none, none, none, none, some S, some r⟩) ∧
    parse_evaluation_gem "AUTHENTICITY: 4\nReason: Good.".data =
      ⟨some "4".data, none, none, none, none, none⟩ ∧
    parse_evaluation_gem "SENSITIVITY: 2\nReason: Weak.".data =
      ⟨none, none, some "2".data, none, none, none⟩ :=
  ⟨fun _ hA hS hH =>
    ⟨parse_evaluation_no_labels hA hS hH, parse_evaluation_gem_no_labels hA hS hH⟩,
   fun w0 w S n wR r wE h0 hw hS hn hwR hr hE hs hh =>
    parse_evaluation_oneCrit_auth w0 w S n wR r wE h0 hw hS hn hwR hr hE hs hh,
   fun w0 w S n wR r wE h0 hw hS hn hwR hr hE ha hh =>
    parse_evaluation_oneCrit_sens w0 w S n wR r wE h0 hw hS hn hwR hr hE ha hh,
   fun w0 w S n wR r wE h0 hw hS hn hwR hr hE ha hs =>
    parse_evaluation_oneCrit_harm w0 w S n wR r wE h0 hw hS hn hwR hr hE ha hs,
   fun w0 w S n wR r wE h0 hw hS hn hwR hr hE ha hs =>
    parse_evaluation_gem_oneCrit_harm w0 w S n wR r wE h0 hw hS hn hwR hr hE ha hs,
   by decide, by decide⟩

/-- C6 counterexample: `"AUTHENTICITY: 4\nReason: Good."` contains exactly one
labeled criterion with a rating and a reason, yet the gemini
`parse_evaluation` returns a null `authenticity_reason` (while capturing the
score), since its reason pattern demands a following `SENSITIVITY` label. -/
theorem c6_counterexample :
    (parse_evaluation_gem "AUTHENTICITY: 4\nReason: Good.".data).authenticity_score =
      some "4".data ∧
    (parse_evaluation_gem "AUTHENTICITY: 4\nReason: Good.".data).authenticity_reason =
      none := by
  decide

/-- C6 witness: a label-free text yields an all-null ollama parse, and an
AUTHENTICITY-only response is parsed into exactly its two fields. -/
theorem c6_witness :
    parse_evaluation "no labels at all".data = ⟨none, none, none, none, none, none⟩ ∧
    parse_evaluation (oneCritText authU [] [' '] ['4'] ['\n'] [' '] "Good base.".data []) =
      ⟨some 4, some "Good base.".data, none, none, none, none⟩ := by
  constructor
  · exact (c6_graceful_degradation.1 _ (by decide) (by decide) (by decide)).1
  · have h := c6_graceful_degradation.2.1 [] [' '] ['4'] ['\n'] [' ']
      "Good base.".data [] (by decide) (by decide)
      (NumTok.int ['4'] (by decide) (by decide)) (by decide) (by decide) (by decide)
      (by decide) (by decide) (by decide)
    rw [h, show numTokVal ['4'] = 4 from by decide]
